import Mathlib

/-!
Verification of the gcsfs repository (a Go filesystem adapter over Google
Cloud Storage) against its natural-language specification.

The development is a shallow embedding of the repository's Go sources:
`util.go` (error translation, prefix normalization), `dir.go` (the paginated
directory lister `gcsDir`), `file.go` (`gcsFile` / `gcsWriterFile`),
`fs.go` (the `GCSFS` facade: Open, Stat, ReadDir, ReadFile, Glob,
CreateFile, WriteFile, RemoveFile, RemoveAll).

Go strings are modelled as `List Char` (`Str`), byte slices as `List Nat`,
and the GCS bucket as a list of objects (`Store`).  The Go standard-library
helpers the code calls (`path.Clean`, `path.Join`, `path.Base`, `path.Dir`,
`path.Match`, `fs.ValidPath`, `strings.HasPrefix` and friends) are modelled
faithfully after their documented algorithms, and the GCS listing service
(prefix + delimiter + startOffset queries returning objects interleaved with
deduplicated common prefixes in lexicographic key order) is modelled after
the documented service contract.  All definitions are executable.
-/

namespace Gcsfs

/-- Decidable equality for `Except` results (Lean core does not derive
one); used to state concrete evaluations of the embedded operations. -/
instance exceptDecEq {ε α : Type} [DecidableEq ε] [DecidableEq α] :
    DecidableEq (Except ε α) := fun x y =>
  match x, y with
  | .ok a, .ok b =>
    if h : a = b then .isTrue (by rw [h])
    else .isFalse (fun hh => by cases hh; exact h rfl)
  | .error a, .error b =>
    if h : a = b then .isTrue (by rw [h])
    else .isFalse (fun hh => by cases hh; exact h rfl)
  | .ok _, .error _ => .isFalse (fun hh => by cases hh)
  | .error _, .ok _ => .isFalse (fun hh => by cases hh)

/-- Go strings, modelled as lists of characters. -/
abbrev Str := List Char

/-- Str from a Lean string literal (used only to write concrete inputs). -/
def str (s : String) : Str := s.data

/-- Go byte-wise string comparison `a < b` (lexicographic). -/
def strLt : Str → Str → Bool
  | [], [] => false
  | [], _ :: _ => true
  | _ :: _, [] => false
  | a :: as, b :: bs => if a < b then true else if b < a then false else strLt as bs

/-- Go string comparison `a <= b`. -/
def strLe (a b : Str) : Bool := strLt a b || a == b

/-- Go `strings.HasPrefix`. -/
def goHasPrefix (s p : Str) : Bool := p.isPrefixOf s

/-- Go `strings.HasSuffix`. -/
def goHasSuffix (s p : Str) : Bool := p.isSuffixOf s

/-- Go `strings.TrimSuffix`. -/
def goTrimSuffix (s p : Str) : Str :=
  if goHasSuffix s p then s.take (s.length - p.length) else s

/-- Go `strings.TrimPrefix`. -/
def goTrimPrefix (s p : Str) : Str :=
  if goHasPrefix s p then s.drop p.length else s

/-- Split a path on 1-character separators, Go `strings.Split(s, "/")`:
the result is never empty and joining it back with slashes gives `s`. -/
def splitOnSlash : Str → List Str
  | [] => [[]]
  | c :: rest =>
    if c = '/' then [] :: splitOnSlash rest
    else
      match splitOnSlash rest with
      | [] => [[c]]
      | s :: ss => (c :: s) :: ss

/-- Join path elements with slashes, the inverse of `splitOnSlash`. -/
def joinSegs : List Str → Str
  | [] => []
  | [s] => s
  | s :: rest => s ++ '/' :: joinSegs rest

/-- One step of Go `path.Clean`'s element processing: empty and "."
elements vanish, ".." pops the last kept element (except that a relative
path keeps leading ".."s and a rooted path drops them at the root). -/
def cleanPush (rooted : Bool) (stack : List Str) (seg : Str) : List Str :=
  if seg = [] ∨ seg = ['.'] then stack
  else if seg = ['.', '.'] then
    match stack with
    | [] => if rooted then [] else [seg]
    | top :: rest => if top = ['.', '.'] then seg :: stack else rest
  else seg :: stack

/-- Reassemble a cleaned path from its kept elements: an empty element
stack is "/" or ".", and a rooted path gets its leading slash back. -/
def cleanAssemble (rooted : Bool) (body : Str) : Str :=
  if body = [] then (if rooted then ['/'] else ['.'])
  else if rooted then '/' :: body else body

/-- Go `path.Clean`: lexically canonical equivalent of the path. -/
def goClean (s : Str) : Str :=
  if s = [] then ['.']
  else
    cleanAssemble (s.head? = some '/')
      (joinSegs (((splitOnSlash s).foldl (cleanPush (s.head? = some '/')) []).reverse))

/-- Go `path.Join` restricted to two elements (the only arity the sources
use): non-empty elements joined with a slash, then cleaned; "" if both
elements are empty. -/
def goJoin (a b : Str) : Str :=
  if a = [] ∧ b = [] then []
  else if a = [] then goClean b
  else goClean (a ++ '/' :: b)

/-- Go `path.Base`: last element of the path, after dropping trailing
slashes; "." for the empty path, "/" for all-slash paths. -/
def goBase (s : Str) : Str :=
  if s = [] then ['.']
  else
    let t := (s.reverse.dropWhile (fun c => c == '/')).reverse
    if t = [] then ['/']
    else (t.reverse.takeWhile (fun c => !(c == '/'))).reverse

/-- Go `path.Dir`: everything up to the final slash, cleaned. -/
def goDir (s : Str) : Str :=
  goClean (s.reverse.dropWhile (fun c => !(c == '/'))).reverse

/-- Go `io/fs.ValidPath`: "." or slash-separated elements that are all
non-empty and none of which is "." or "..". -/
def validPath (s : Str) : Bool :=
  s = ['.'] || (splitOnSlash s).all (fun e => !(e = [] || e = ['.'] || e = ['.', '.']))

/-! ## Errors

Go error values reachable in the sources: the sentinels `fs.ErrNotExist`,
`fs.ErrInvalid`, `fs.ErrExist`, `storage.ErrObjectNotExist`, `io.EOF`,
`path.ErrBadPattern`, the syscall errnos `EISDIR`/`ENOTDIR` used by
`createFile` and `gcsDir.Read`, opaque backend failures, and `*fs.PathError`
wrappers (whose `Unwrap` returns the inner error). -/

inductive GoError where
  | notExist
  | invalid
  | exist
  | objectNotExist
  | eisdir
  | enotdir
  | eofErr
  | badPattern
  | backend (n : Nat)
  | pathError (op : Str) (path : Str) (err : GoError)
deriving DecidableEq, Repr

/-- Go `errors.Is(e, target)` for sentinel targets: equality, else unwrap
through `*fs.PathError` envelopes. -/
def errIs : GoError → GoError → Bool
  | .pathError op p inner, t =>
    (GoError.pathError op p inner = t) || errIs inner t
  | e, t => e = t

/-- `errors.As(err, &pathErr)`: the `Err` field of the first `*fs.PathError`
in the unwrap chain (the sentinels have no `Unwrap`). -/
def firstPathErrInner : GoError → Option GoError
  | .pathError _ _ inner => some inner
  | _ => none

/-- util.go `isNotExist`: `errors.Is(err, fs.ErrNotExist)`, or a
`*fs.PathError` whose `Err` field is exactly `fs.ErrNotExist`. -/
def isNotExist (e : GoError) : Bool :=
  errIs e .notExist ||
    (match firstPathErrInner e with
     | some inner => inner = .notExist
     | none => false)

/-- util.go `isObjectNotExist`: `errors.Is(err, storage.ErrObjectNotExist)`. -/
def isObjectNotExist (e : GoError) : Bool := errIs e .objectNotExist

/-- util.go `toPathError` on a non-nil error: rewrap the storage not-found
sentinel as `fs.ErrNotExist` and attach an `{op, path}` envelope. -/
def toPathErrE (e : GoError) (op nm : Str) : GoError :=
  .pathError op nm (if isObjectNotExist e then .notExist else e)

/-- util.go `toPathError` (nil maps to nil). -/
def toPathError : Option GoError → Str → Str → Option GoError
  | none, _, _ => none
  | some e, op, nm => some (toPathErrE e op nm)

/-- util.go `toObjectNotExistIfNoExist`. -/
def toObjectNotExistIfNoExist : Option GoError → Option GoError
  | none => none
  | some e => if isNotExist e then some .objectNotExist else some e

/-- util.go `normalizePrefix`: clean, map "." and "/" to the empty prefix,
and give any other prefix exactly one trailing slash. -/
def normalizePrefix (p : Str) : Str :=
  let p1 := goClean p
  if p1 = ['.'] ∨ p1 = ['/'] then []
  else if p1 ≠ [] ∧ ¬ goHasSuffix p1 ['/'] then p1 ++ ['/'] else p1

/-- util.go `normalizePrefixPattern`: the pattern truncated at its first
glob metacharacter, joined onto the normalized prefix (the current variant,
which also restores a trailing slash when the whole pattern was cut away). -/
def normalizePrefixPattern (pfx pattern : Str) : Str :=
  let p := normalizePrefix pfx
  let cut := pattern.takeWhile (fun c => ¬(c = '*' ∨ c = '?' ∨ c = '[' ∨ c = '\\'))
  let joined := goJoin p cut
  if goHasSuffix cut ['/'] ∨ (joined ≠ [] ∧ cut = []) then joined ++ ['/']
  else joined

/-! ## The object-store backend

A bucket is a flat list of objects.  The GCS listing service is modelled
after its documented contract: a query `{delimiter, prefix, startOffset}`
returns, in lexicographic key order, the objects whose key has the prefix
and is `>= startOffset`; with delimiter "/" the keys containing a slash
after the prefix are folded into deduplicated synthetic common-prefix
records, and with `IncludeTrailingDelimiter` objects whose key equals their
own fold target also appear as objects. -/

/-- One stored object: key, content bytes and update timestamp. -/
structure GObj where
  key : Str
  data : List Nat
  updated : Nat
deriving DecidableEq, Repr

abbrev Store := List GObj

/-- The subset of `storage.ObjectAttrs` the sources select: `Name`,
`Prefix` (called `pfx` here), `Size`, `Updated`.  A common-prefix record
has an empty `name` and a non-empty `pfx`. -/
structure ObjectAttrs where
  name : Str
  pfx : Str
  size : Int
  updated : Nat
deriving DecidableEq, Repr

/-- `storage.Query` fields the sources set. -/
structure Query where
  delimiter : Str
  pfx : Str
  startOffset : Str
  includeTrailingDelimiter : Bool
deriving DecidableEq, Repr

/-- util.go `newQuery` (current variant: `IncludeTrailingDelimiter` is set
exactly when the delimiter is "/"). -/
def newQuery (delim pfx offset : Str) : Query :=
  { delimiter := delim, pfx := pfx, startOffset := offset,
    includeTrailingDelimiter := delim = ['/'] }

/-- Attrs record of a stored object. -/
def objAttrs (o : GObj) : ObjectAttrs :=
  { name := o.key, pfx := [], size := o.data.length, updated := o.updated }

/-- Synthetic common-prefix attrs record. -/
def preAttrs (t : Str) : ObjectAttrs :=
  { name := [], pfx := t, size := 0, updated := 0 }

/-- The common-prefix a key folds to under prefix `p` and delimiter "/":
`p ++ segment ++ "/"` where `segment` is the key's remainder up to the
first slash; `none` when the remainder has no slash (the key lists as an
object). -/
def foldTarget (p k : Str) : Option Str :=
  let rem := k.drop p.length
  let seg := rem.takeWhile (fun c => !(c == '/'))
  if seg.length = rem.length then none else some (p ++ seg ++ ['/'])

/-- Delimiter-"/" folding of a sorted run of keys: objects stay objects,
keys deeper than one level collapse to common prefixes, consecutive equal
prefixes are emitted once (`last` carries the previously emitted prefix). -/
def foldKeys (p : Str) (itd : Bool) : List GObj → Option Str → List ObjectAttrs
  | [], _ => []
  | o :: rest, last =>
    match foldTarget p o.key with
    | none => objAttrs o :: foldKeys p itd rest last
    | some t =>
      if last = some t then foldKeys p itd rest last
      else
        (if itd ∧ t = o.key then [objAttrs o] else []) ++
          preAttrs t :: foldKeys p itd rest (some t)

/-- The full result sequence of `bucket.Objects(ctx, q)`: filtered by
prefix and start offset, sorted by key, and folded when the delimiter
is "/". -/
def gcsObjects (q : Query) (store : Store) : List ObjectAttrs :=
  let ks := (store.filter
      (fun o => goHasPrefix o.key q.pfx && strLe q.startOffset o.key)).insertionSort
      (fun a b => strLe a.key b.key = true)
  if q.delimiter = ['/'] then foldKeys q.pfx q.includeTrailingDelimiter ks none
  else ks.map objAttrs

/-- `object.Attrs(ctx)`: the object's attrs, or `storage.ErrObjectNotExist`. -/
def attrsGet (store : Store) (k : Str) : Except GoError ObjectAttrs :=
  match store.find? (fun o => o.key == k) with
  | some o => .ok (objAttrs o)
  | none => .error .objectNotExist

/-- `object.NewReader(ctx)` followed by a full read (`io.ReadAll`):
the object's bytes, or `storage.ErrObjectNotExist`. -/
def readObject (store : Store) (k : Str) : Except GoError (List Nat) :=
  match store.find? (fun o => o.key == k) with
  | some o => .ok o.data
  | none => .error .objectNotExist

/-! ## content.go -/

/-- content.go `content`: name (the final path segment), directory flag,
size and modification time; directories carry zero size/time. -/
structure Content where
  name : Str
  isDir : Bool
  size : Int
  modTime : Nat
deriving DecidableEq, Repr

/-- content.go `newDirContent`. -/
def newDirContent (p : Str) : Content :=
  { name := goBase (goTrimSuffix p ['/']), isDir := true, size := 0, modTime := 0 }

/-- content.go `newFileContent`. -/
def newFileContent (a : ObjectAttrs) : Content :=
  { name := goBase a.name, isDir := false, size := a.size, modTime := a.updated }

/-- content.go `newContent`. -/
def newContent (a : ObjectAttrs) : Content :=
  if a.name = [] then newDirContent a.pfx else newFileContent a

/-! ## fs.go: the filesystem root -/

/-- fs.go `GCSFS`: the buffer size used when `Open` resolves a directory,
and the root prefix (`dir`).  The bucket name and the storage client are
represented by the `Store` each operation receives. -/
structure GCSFS where
  dirOpenBufferSize : Int
  dir : Str
deriving DecidableEq, Repr

/-- The root filesystem instance `New(bucket)`: default buffer size 100,
empty root prefix. -/
def rootFS : GCSFS := { dirOpenBufferSize := 100, dir := [] }

/-- fs.go `fsys.key(name)`: `path.Join(fsys.dir, name)`. -/
def gKey (fsys : GCSFS) (name : Str) : Str := goJoin fsys.dir name

/-- fs.go `fsys.rel(name)`: strip the normalized root prefix. -/
def gRel (fsys : GCSFS) (name : Str) : Str :=
  goTrimPrefix name (normalizePrefix fsys.dir)

/-! ## dir.go: the paginated directory lister -/

/-- dir.go `gcsDir`: normalized prefix, resume offset, buffered entries
and the exhaustion flag. -/
structure GcsDir where
  pfx : Str
  offset : Str
  cache : List Content
  eof : Bool
deriving DecidableEq, Repr

/-- dir.go `newGcsDir`. -/
def newGcsDir (fsys : GCSFS) (name : Str) : GcsDir :=
  { pfx := normalizePrefix (gKey fsys name), offset := [], cache := [], eof := false }

/-- dir.go `gcsDir.Read`: always 0 bytes and a `*fs.PathError` carrying
`syscall.EISDIR`; the backend store is not consulted. -/
def gcsDirRead (d : GcsDir) : Int × Option GoError :=
  (0, some (.pathError (str "Read") d.pfx .eisdir))

/-- dir.go `gcsDir.readCache`: serve up to `n` entries from the buffer
(all of them when `n <= 0` or `n` covers the buffer). -/
def readCache (d : GcsDir) (n : Int) : List Content × GcsDir :=
  if n > 0 ∧ n < (d.cache.length : Int) then
    (d.cache.take n.toNat, { d with cache := d.cache.drop n.toNat })
  else
    (d.cache, { d with cache := [] })

/-- The iterator loop inside dir.go `gcsDir.list`: entries at or before
the resume offset are skipped, and with `n > 0` the loop stops as soon as
`n` entries (cached ones included) have been collected.  Returns the
collected entries and whether the iterator was drained (`iterator.Done`,
which sets `eof`). -/
def listLoop (off : Str) (n : Int) : List ObjectAttrs → List Content → List Content × Bool
  | [], acc => (acc, true)
  | a :: rest, acc =>
    let c := newContent a
    if strLe c.name off then listLoop off n rest acc
    else
      let acc := acc ++ [c]
      if n > 0 ∧ (acc.length : Int) ≥ n then (acc, false)
      else listLoop off n rest acc

/-- The query-and-iterate part of dir.go `gcsDir.list`: one
delimiter-"/" listing from the current offset, appended to the entries
already drained from the cache, then the offset advances to the *name*
(the final path segment) of the last entry returned. -/
def dirListQuery (store : Store) (d : GcsDir) (n : Int) (acc : List Content) :
    List Content × GcsDir :=
  let q : Query :=
    { delimiter := ['/'], pfx := d.pfx, startOffset := d.offset,
      includeTrailingDelimiter := false }
  let items := gcsObjects q store
  let (entries, done) := listLoop d.offset n items acc
  let d1 := if done then { d with eof := true } else d
  if entries.length > 0 then
    (entries,
      { d1 with
        offset := (entries.getLastD { name := [], isDir := false, size := 0, modTime := 0 }).name })
  else (entries, d1)

/-- dir.go `gcsDir.list`: drain the cache first; return `io.EOF` when
exhausted and nothing is buffered; otherwise query for more. -/
def dirList (store : Store) (d : GcsDir) (n : Int) :
    Except GoError (List Content × GcsDir) :=
  if d.cache.length > 0 then
    let cacheCount : Int := d.cache.length
    let (entries, d1) := readCache d n
    if d1.eof ∨ (n > 0 ∧ n ≤ cacheCount) then .ok (entries, d1)
    else .ok (dirListQuery store d1 (n - cacheCount) entries)
  else if d.eof then .error .eofErr
  else .ok (dirListQuery store d n [])

/-- dir.go `gcsDir.ReadDir`: `list(n)`, with `io.EOF` mapped to an empty
result when `n <= 0`, and the entries sorted by name when `n <= 0`.
(Go uses an unstable `sort.Slice` with a strict-less comparator; the model
sorts by `<=` on names, which fixes one of the orders Go may produce and
has the same sorted-by-name contract.) -/
def dirReadDir (store : Store) (d : GcsDir) (n : Int) :
    Except GoError (List Content × GcsDir) :=
  match dirList store d n with
  | .error e => if n ≤ 0 ∧ e = .eofErr then .ok ([], d) else .error e
  | .ok (entries, d1) =>
    if n ≤ 0 then
      .ok (entries.insertionSort (fun a b => strLe a.name b.name = true), d1)
    else .ok (entries, d1)

/-- dir.go `gcsDir.open`: one `list(n)` call; zero entries means the path
does not exist (a `*fs.PathError` with `fs.ErrNotExist`), otherwise the
entries become the directory handle's cache. -/
def dirOpen (store : Store) (d : GcsDir) (n : Int) : Except GoError GcsDir :=
  match dirList store d n with
  | .error e => .error e
  | .ok (entries, d1) =>
    if entries.length = 0 then
      .error (.pathError (str "Open") d.pfx .notExist)
    else .ok { d1 with cache := entries }

/-! ## file.go: read and write handles -/

/-- file.go `gcsFile`: an object's content entry, plus the handle needed
to lazily open a read stream. -/
structure GcsFile where
  content : Content
  key : Str
  attrs : ObjectAttrs
deriving DecidableEq, Repr

/-- file.go `newGcsFile`. -/
def newGcsFile (a : ObjectAttrs) : GcsFile :=
  { content := newFileContent a, key := a.name, attrs := a }

/-- The pending bytes of a `storage.Writer` stream.  Per the GCS client
contract the object only becomes visible in the bucket when the writer's
`Close` is called (modelled by `storageWriterCommit`). -/
structure WriterBuf where
  buf : List Nat
deriving DecidableEq, Repr

/-- Closing a `storage.Writer`: the pending bytes become the object at
`k` (insert or overwrite).  This is what the backend would do — the point
of claim C5 is whether `gcsWriterFile.Close` ever invokes it. -/
def storageWriterCommit (store : Store) (k : Str) (w : WriterBuf) (now : Nat) : Store :=
  if store.any (fun o => o.key == k) then
    store.map (fun o => if o.key == k then { o with data := w.buf, updated := now } else o)
  else store ++ [{ key := k, data := w.buf, updated := now }]

/-- file.go `gcsWriterFile`: base-named content, the object key, and the
lazily opened write stream. -/
structure GcsWriterFile where
  name : Str
  key : Str
  out : Option WriterBuf
deriving DecidableEq, Repr

/-- file.go `newGcsWriterFile`: content name is `path.Base(name)`, the
stream is not opened yet. -/
def newGcsWriterFile (fsys : GCSFS) (nm : Str) : GcsWriterFile :=
  { name := goBase nm, key := gKey fsys nm, out := none }

/-- file.go `gcsWriterFile.Write`: open the stream on first write, append
the bytes, report their count. -/
def gcsWriterFileWrite (f : GcsWriterFile) (p : List Nat) : GcsWriterFile × Int :=
  let w := match f.out with
    | none => WriterBuf.mk []
    | some w => w
  ({ f with out := some { buf := w.buf ++ p } }, p.length)

/-- file.go `gcsWriterFile.Close` — a literal port of `return nil`: it
reports success without touching the handle, the stream, or the backend
(in particular it never calls the stream's own close, so
`storageWriterCommit` never runs). -/
def gcsWriterFileClose (f : GcsWriterFile) (store : Store) :
    GcsWriterFile × Store × Option GoError :=
  (f, store, none)

/-- file.go `gcsWriterFile.Read`: always `(0, nil)`. -/
def gcsWriterFileRead (_f : GcsWriterFile) : Int × Option GoError := (0, none)

/-! ## fs.go: facade operations -/

/-- fs.go `GCSFS.openFile`: validate, fetch attrs for the derived key,
treat an attrs record with empty name and prefix as missing. -/
def openFile (fsys : GCSFS) (store : Store) (nm : Str) : Except GoError GcsFile :=
  if ¬ validPath nm then .error (toPathErrE .invalid (str "Open") nm)
  else
    match attrsGet store (gKey fsys nm) with
    | .error e => .error (toPathErrE e (str "Open") nm)
    | .ok a =>
      if a.name = [] ∧ a.pfx = [] then
        .error (toPathErrE .objectNotExist (str "Open") nm)
      else .ok (newGcsFile a)

/-- The two things `Open`/`Stat` can produce: a file handle or a
directory handle. -/
inductive OpenRes where
  | file (f : GcsFile)
  | dir (d : GcsDir)
deriving DecidableEq, Repr

/-- fs.go `GCSFS.Open`: try the object; on a not-exist error probe the
prefix as a directory, pre-loading up to `DirOpenBufferSize` entries. -/
def gcsfsOpen (fsys : GCSFS) (store : Store) (nm : Str) : Except GoError OpenRes :=
  match openFile fsys store nm with
  | .ok f => .ok (.file f)
  | .error e =>
    if isNotExist e then
      match dirOpen store (newGcsDir fsys nm) fsys.dirOpenBufferSize with
      | .ok d => .ok (.dir d)
      | .error e2 => .error e2
    else .error e

/-- fs.go `GCSFS.Stat`: like `Open` but the directory probe asks for a
single entry. -/
def gcsfsStat (fsys : GCSFS) (store : Store) (nm : Str) : Except GoError OpenRes :=
  match openFile fsys store nm with
  | .ok f => .ok (.file f)
  | .error e =>
    if isNotExist e then
      match dirOpen store (newGcsDir fsys nm) 1 with
      | .ok d => .ok (.dir d)
      | .error e2 => .error e2
    else .error e

/-- fs.go `GCSFS.ReadDir`: a full `readDir(-1)` on a fresh handle. -/
def gcsfsReadDir (fsys : GCSFS) (store : Store) (dirName : Str) :
    Except GoError (List Content) :=
  if ¬ validPath dirName then .error (toPathErrE .invalid (str "ReadDir") dirName)
  else
    match dirReadDir store (newGcsDir fsys dirName) (-1) with
    | .error e => .error e
    | .ok (entries, _) => .ok entries

/-- fs.go `GCSFS.ReadFile`: open, read to completion, close. -/
def gcsfsReadFile (fsys : GCSFS) (store : Store) (nm : Str) :
    Except GoError (List Nat) :=
  match openFile fsys store nm with
  | .error e => .error e
  | .ok f => readObject store f.key

/-- fs.go `GCSFS.createFile`: reject invalid paths; an existing directory
at the name (with no object there) is `EISDIR`; an existing object at the
parent path is `ENOTDIR`; otherwise hand out a writer. -/
def createFile (fsys : GCSFS) (store : Store) (nm : Str) :
    Except GoError GcsWriterFile :=
  if ¬ validPath nm then .error (toPathErrE .invalid (str "Create") nm)
  else
    let early : Option GoError :=
      match openFile fsys store nm with
      | .error e =>
        if ¬ isNotExist e then some (toPathErrE e (str "CreateFile") nm)
        else
          match dirOpen store (newGcsDir fsys nm) 1 with
          | .ok _ => some (toPathErrE .eisdir (str "CreateFile") nm)
          | .error _ => none
      | .ok _ => none
    match early with
    | some e => .error e
    | none =>
      let parent := goDir nm
      match openFile fsys store parent with
      | .ok _ => .error (toPathErrE .enotdir (str "CreateFile") parent)
      | .error _ => .ok (newGcsWriterFile fsys nm)

/-- fs.go `GCSFS.CreateFile`: the mode argument is accepted and ignored. -/
def gcsfsCreateFile (fsys : GCSFS) (store : Store) (nm : Str) (_mode : Nat) :
    Except GoError GcsWriterFile :=
  createFile fsys store nm

/-- fs.go `GCSFS.WriteFile`: create, write the bytes, and close via
`defer` (whose error is discarded).  Returns the reported byte count and
the backend store as the operation leaves it. -/
def gcsfsWriteFile (fsys : GCSFS) (store : Store) (nm : Str) (p : List Nat)
    (_mode : Nat) : Except GoError (Int × Store) :=
  match createFile fsys store nm with
  | .error e => .error e
  | .ok f =>
    let (f1, n) := gcsWriterFileWrite f p
    let (_, store1, _) := gcsWriterFileClose f1 store
    .ok (n, store1)

/-- fs.go `GCSFS.RemoveFile`: delete the object at the derived key. -/
def gcsfsRemoveFile (fsys : GCSFS) (store : Store) (nm : Str) :
    Store × Option GoError :=
  if ¬ validPath nm then (store, some (toPathErrE .invalid (str "RemoveFile") nm))
  else
    let k := gKey fsys nm
    if store.any (fun o => o.key == k) then
      (store.filter (fun o => ¬(o.key == k)), none)
    else (store, toPathError (some .objectNotExist) (str "RemoveFile") nm)

/-- A listing fault for `RemoveAll`: the iterator's `nextAttrs` fails with
the given error when it is invoked for the `i`-th time. -/
def listFaultAt (lf : Option (Nat × GoError)) (i : Nat) : Option GoError :=
  match lf with
  | some (j, e) => if j = i then some e else none
  | none => none

/-- The walk inside fs.go `GCSFS.RemoveAll`: delete each listed object in
listing order; a listing fault is reported against the directory argument
and a deletion fault against the joined object name; either stops the walk
with the objects already deleted staying deleted. -/
def raLoop (dirName : Str) (dFault : Str → Option GoError)
    (lFault : Option (Nat × GoError)) :
    Nat → Store → List ObjectAttrs → Store × Option GoError
  | i, st, items =>
    match listFaultAt lFault i with
    | some e => (st, some (toPathErrE e (str "RemoveAll") dirName))
    | none =>
      match items with
      | [] => (st, none)
      | a :: rest =>
        let nm := goJoin a.pfx a.name
        match dFault nm with
        | some e => (st, some (toPathErrE e (str "RemoveAll") nm))
        | none =>
          if st.any (fun o => o.key == nm) then
            raLoop dirName dFault lFault (i + 1)
              (st.filter (fun o => ¬(o.key == nm))) rest
          else (st, some (toPathErrE .objectNotExist (str "RemoveAll") nm))

/-- fs.go `GCSFS.RemoveAll`: a delimiter-free listing of the normalized
prefix, then delete every listed object in order.  `dFault`/`lFault`
inject backend failures (none for a healthy backend). -/
def gcsfsRemoveAll (fsys : GCSFS) (store : Store) (dirName : Str)
    (dFault : Str → Option GoError) (lFault : Option (Nat × GoError)) :
    Store × Option GoError :=
  if ¬ validPath dirName then
    (store, some (toPathErrE .invalid (str "RemoveAll") dirName))
  else
    let q := newQuery [] (normalizePrefix (gKey fsys dirName)) []
    raLoop dirName dFault lFault 0 store (gcsObjects q store)

/-! ## Go `path.Match`, modelled after its source: the pattern is split
into star-prefixed chunks, each chunk is matched left to right, and a
star searches forward over non-slash positions of the name.  Fuel
arguments bound the chunk-consuming loops; `length + 1` fuel always
suffices since every iteration consumes at least one pattern character. -/

/-- The body of `scanChunk`'s scan: copy pattern characters into the
chunk until an unbracketed `*`, skipping a character after `\`. -/
def scanChunkBody (inrange : Bool) : Str → Str × Str
  | [] => ([], [])
  | '\\' :: c :: rest =>
    let (ch, rst) := scanChunkBody inrange rest
    ('\\' :: c :: ch, rst)
  | c :: rest =>
    if c = '*' ∧ ¬ inrange then ([], c :: rest)
    else
      let inr := if c = '[' then true else if c = ']' then false else inrange
      let (ch, rst) := scanChunkBody inr rest
      (c :: ch, rst)

/-- `scanChunk`: strip leading stars, then scan one chunk. -/
def scanChunk (p : Str) : Bool × Str × Str :=
  let p1 := p.dropWhile (fun c => c = '*')
  let (chunk, rest) := scanChunkBody false p1
  (p1.length ≠ p.length, chunk, rest)

/-- The pattern as a list of (saw-star, chunk) pairs. -/
def scanChunks : Nat → Str → List (Bool × Str)
  | 0, _ => []
  | _, [] => []
  | fuel + 1, p =>
    let (st, ch, rest) := scanChunk p
    (st, ch) :: scanChunks fuel rest

/-- `getEsc`: one (possibly escaped) character of a class; a leading `-`
or `]`, a trailing `\`, or an exhausted chunk is a bad pattern. -/
def getEsc : Str → Except Unit (Char × Str)
  | [] => .error ()
  | '-' :: _ => .error ()
  | ']' :: _ => .error ()
  | '\\' :: [] => .error ()
  | '\\' :: d :: rest => if rest = [] then .error () else .ok (d, rest)
  | c :: rest => if rest = [] then .error () else .ok (c, rest)

/-- The range loop of `matchChunk`'s `[` case: parse `lo(-hi)` ranges
until a closing `]` (which must follow at least one range), accumulating
whether the candidate character `r` (none once the match has failed) lies
in some range. -/
def classRanges : Nat → Str → Option Char → Bool → Bool → Except Unit (Str × Bool)
  | 0, _, _, _, _ => .error ()
  | fuel + 1, chunk, r, matched, anyRange =>
    match chunk with
    | ']' :: rest =>
      if anyRange then .ok (rest, matched)
      else .error ()
    | _ =>
      match getEsc chunk with
      | .error _ => .error ()
      | .ok (lo, ch1) =>
        match ch1 with
        | '-' :: ch2 =>
          (match getEsc ch2 with
           | .error _ => .error ()
           | .ok (hi, ch3) =>
             let hit : Bool := match r with
               | some rc => decide (lo ≤ rc ∧ rc ≤ hi)
               | none => false
             classRanges fuel ch3 r (matched || hit) true)
        | _ =>
          let hit : Bool := match r with
            | some rc => decide (lo = rc)
            | none => false
          classRanges fuel ch1 r (matched || hit) true

/-- `matchChunk`: match one chunk against the head of the name.  After a
mismatch the loop keeps consuming the chunk (checking well-formedness)
without reading the name.  Returns the unconsumed name and whether the
chunk matched. -/
def matchChunk : Nat → Str → Str → Bool → Except Unit (Str × Bool)
  | 0, _, _, _ => .error ()
  | _ + 1, [], s, failed => if failed then .ok ([], false) else .ok (s, true)
  | fuel + 1, c :: ch, s, failed0 =>
    let failed := failed0 || s.isEmpty
    if c = '[' then
      let r : Option Char := if failed then none else s.head?
      let s1 := if failed then s else s.tail
      let (negated, ch1) :=
        match ch with
        | '^' :: t => (true, t)
        | _ => (false, ch)
      match classRanges fuel ch1 r false false with
      | .error _ => .error ()
      | .ok (ch2, matched) =>
        matchChunk fuel ch2 s1 (failed || (matched = negated))
    else if c = '?' then
      if failed then matchChunk fuel ch s failed
      else matchChunk fuel ch s.tail (s.head? = some '/')
    else if c = '\\' then
      match ch with
      | [] => .error ()
      | d :: ch1 =>
        if failed then matchChunk fuel ch1 s failed
        else matchChunk fuel ch1 s.tail (¬ (s.head? = some d))
    else
      if failed then matchChunk fuel ch s failed
      else matchChunk fuel ch s.tail (¬ (s.head? = some c))

/-- `matchChunk` with the fuel it needs. -/
def matchChunkTop (chunk s : Str) : Except Unit (Str × Bool) :=
  matchChunk (chunk.length + 1) chunk s false

/-- The star search of `Match`: try the chunk at each later position of
the name that does not cross a slash; the first acceptable position wins
(no backtracking across positions). -/
def starSearch (chunk : Str) (lastChunk : Bool) : Str → Except Unit (Option Str)
  | [] => .ok none
  | c :: tails =>
    if c = '/' then .ok none
    else
      match matchChunkTop chunk tails with
      | .error _ => .error ()
      | .ok (t, ok) =>
        if ok ∧ (¬ lastChunk ∨ t = []) then .ok (some t)
        else starSearch chunk lastChunk tails

/-- The `Pattern` loop of `Match` over the scanned chunks. -/
def matchPattern : List (Bool × Str) → Str → Except Unit Bool
  | [], name => .ok (name = [])
  | (star, chunk) :: rest, name =>
    if star ∧ chunk = [] then .ok (¬ name.contains '/')
    else
      match matchChunkTop chunk name with
      | .error _ => .error ()
      | .ok (t, ok) =>
        if ok ∧ (t = [] ∨ rest ≠ []) then matchPattern rest t
        else if star then
          match starSearch chunk (rest = []) name with
          | .error _ => .error ()
          | .ok (some t2) => matchPattern rest t2
          | .ok none => .ok false
        else .ok false

/-- Go `path.Match(pattern, name)`; `.error` is `path.ErrBadPattern`. -/
def goMatch (pattern name : Str) : Except Unit Bool :=
  matchPattern (scanChunks (pattern.length + 1) pattern) name

/-- `path.Match` with the error discarded, as `appendIfMatch` uses it. -/
def matchOk (pattern name : Str) : Bool :=
  match goMatch pattern name with
  | .ok b => b
  | .error _ => false

/-- util.go `contains`. -/
def contains (keys : List Str) (key : Str) : Bool :=
  keys.any (fun k => k == key)

/-- util.go `appendIfMatch`: append `key` when it matches the pattern and
is not already present (the match error is discarded). -/
def appendIfMatch (keys : List Str) (key pattern : Str) : List Str :=
  if matchOk pattern key ∧ ¬ contains keys key then keys ++ [key]
  else keys

/-- fs.go `GCSFS.listForGlob`: one delimiter-"/" listing whose prefix is
the pattern's literal head, keeping the relative names that match the
pattern (only directories when `dirOnly`). -/
def listForGlob (fsys : GCSFS) (store : Store) (pattern : Str) (dirOnly : Bool) :
    List Str :=
  let q := newQuery ['/'] (normalizePrefixPattern fsys.dir pattern) []
  (gcsObjects q store).foldl
    (fun names a =>
      if a.name = [] then
        appendIfMatch names (gRel fsys (goTrimSuffix a.pfx ['/'])) pattern
      else if dirOnly then names
      else appendIfMatch names (gRel fsys a.name) pattern)
    []

/-- fs.go `GCSFS.glob`: expand one pattern segment per round; matched
directories of a non-final round seed the next round. -/
def globRec (fsys : GCSFS) (store : Store) :
    List Str → List Str → List Str → List Str
  | [], _, ms => ms
  | pat :: rest, dirs, ms =>
    let dirOnly := rest ≠ []
    let step := dirs.foldl
      (fun (acc : List Str × List Str) dir =>
        let keys := listForGlob fsys store (goJoin dir pat) dirOnly
        ((if dirOnly then acc.1 ++ keys else acc.1), acc.2 ++ keys))
      ([], ms)
    if step.1 ≠ [] ∧ dirOnly then globRec fsys store rest step.1 step.2
    else step.2

/-- fs.go `GCSFS.Glob`: "" and "*" short-circuit to the root listing's
entry names; otherwise validate the pattern, run the segment expansion
from the root, filter by a final full-pattern match with deduplication,
and sort. -/
def gcsfsGlob (fsys : GCSFS) (store : Store) (pattern : Str) :
    Except GoError (List Str) :=
  if pattern = [] ∨ pattern = ['*'] then
    match gcsfsReadDir fsys store [] with
    | .error e => .error e
    | .ok entries => .ok (entries.map Content.name)
  else
    match goMatch pattern [] with
    | .error _ => .error .badPattern
    | .ok _ =>
      let names := globRec fsys store (splitOnSlash pattern) [[]] []
      .ok ((names.foldl (fun ms nm => appendIfMatch ms nm pattern) []).insertionSort
        (fun a b => strLe a b = true))

/-! ## Concrete stores used by the counterexamples and code evaluations -/

/-- A bucket holding one object `x` (used against claim C1 at the root
path "."). -/
def storeC1 : Store := [{ key := str "x", data := [120], updated := 7 }]

/-- A bucket where `d/a` is both an object and a directory (it has the
child `d/a/b`). -/
def storeC2 : Store :=
  [{ key := str "d/a", data := [120], updated := 7 },
   { key := str "d/a/b", data := [121], updated := 8 }]

/-- A two-file directory `a` whose entries sort before their own base
names (used against claim C3's pagination). -/
def storeC3 : Store :=
  [{ key := str "a/x", data := [120], updated := 7 },
   { key := str "a/y", data := [121], updated := 8 }]

/-- The directory handle state after the first bounded `readDir(1)` on
`storeC3`: the resume offset is the base name `x`. -/
def c3dir1 : GcsDir := { pfx := str "a/", offset := str "x", cache := [], eof := false }

/-- The state after the second call: the offset `x` filtered out every
remaining key, so the handle is exhausted. -/
def c3dir2 : GcsDir := { pfx := str "a/", offset := str "x", cache := [], eof := true }

/-- A bucket holding only the file object `a` (an ancestor segment of
`a/b/c`). -/
def storeC6 : Store := [{ key := str "a", data := [120], updated := 7 }]

/-- The writer handle for `a.txt` after one `Write([120])`: the stream is
open and holds the pending byte. -/
def c5written : GcsWriterFile :=
  (gcsWriterFileWrite (newGcsWriterFile rootFS (str "a.txt")) [120]).1

/-- The sentinel kind at the bottom of a (possibly nested) `*fs.PathError`
chain. -/
def baseKind : GoError → GoError
  | .pathError _ _ inner => baseKind inner
  | e => e

/-- A well-formed GCS object key as ordinary usage produces them: already
path-clean (no empty, "." or ".." elements, no doubled or trailing slash)
and not starting with a slash. -/
def cleanKey (k : Str) : Prop :=
  goClean k = k ∧ k.head? ≠ some '/' ∧ k ≠ []

/-- `t` is a one-level common prefix under `p`: `p ++ seg ++ "/"` with a
slash-free segment. -/
def alignedPfx (p t : Str) : Prop :=
  ∃ seg : Str, (∀ c ∈ seg, (c == '/') = false) ∧ t = p ++ seg ++ ['/']

/-- The string an attrs record sorts by in a listing: the object name, or
the common prefix for synthetic directory records. -/
def attrKey (a : ObjectAttrs) : Str :=
  if a.name = [] then a.pfx else a.name

/-- A well-formed GCS object key as ordinary usage produces them:
non-empty, no leading or trailing slash, no doubled slash. -/
def keyShape (k : Str) : Prop :=
  k ≠ [] ∧ k.head? ≠ some '/' ∧ goHasSuffix k ['/'] = false ∧
    ¬ (['/', '/'] <:+: k)

instance keyShapeDecidable (k : Str) : Decidable (keyShape k) := by
  unfold keyShape
  infer_instance

/-- Some path is both a file and a directory immediately under the listing
prefix `p`: an object `p ++ x` exists (one level deep) together with some
object strictly below `p ++ x ++ "/"`. -/
def fileDirCollision (store : Store) (p : Str) : Prop :=
  ∃ x : Str, x ≠ [] ∧ (∀ c ∈ x, (c == '/') = false) ∧
    (∃ o ∈ store, o.key = p ++ x) ∧
    (∃ o ∈ store, (p ++ x ++ ['/']) <+: o.key)

/-! ## Claim C10 -/

/-- C10: reading a directory handle returns 0 bytes and a `*fs.PathError`
carrying `syscall.EISDIR`, for every handle state; `gcsDirRead` takes no
store argument because dir.go's `Read` never consults the backend. -/
theorem c10_dir_read_always_eisdir (d : GcsDir) :
    gcsDirRead d = (0, some (.pathError (str "Read") d.pfx .eisdir)) := rfl

/-! ## Claim C3: pagination (code bug)

dir.go advances the resume offset to the last entry's *base name*
(`entries[count-1].Name()`), not its full key, and sends it as the next
query's `StartOffset`.  In the directory `a` the offset becomes `x`, and
every remaining key (`a/y` < `x`) is filtered away by the resumed query,
so the bounded walk ends after one entry while `readDir(-1)` sees two. -/

/-- C3: the full bounded walk over `storeC3`'s directory `a` with `n = 1`
yields only `x` and then signals end-of-sequence, while a single
`readDir(-1)` on a fresh handle yields `x` and `y`. -/
theorem c3_pagination_loses_entries :
    dirReadDir storeC3 (newGcsDir rootFS (str "a")) 1 =
      .ok ([{ name := str "x", isDir := false, size := 1, modTime := 7 }], c3dir1) ∧
    dirReadDir storeC3 c3dir1 1 = .ok ([], c3dir2) ∧
    dirReadDir storeC3 c3dir2 1 = .error .eofErr ∧
    dirReadDir storeC3 (newGcsDir rootFS (str "a")) (-1) =
      .ok ([{ name := str "x", isDir := false, size := 1, modTime := 7 },
            { name := str "y", isDir := false, size := 1, modTime := 8 }],
        { pfx := str "a/", offset := str "y", cache := [], eof := true }) := by
  decide

/-! ## Claims C4 and C5: the write path (code bug)

file.go's `gcsWriterFile.Close` is literally `return nil`: it never closes
the underlying `storage.Writer`, and a GCS object only becomes visible
when that writer is closed.  (The test backend `fsClient` creates the file
eagerly inside `newWriter`, which masks this in the repository's own
tests.) -/

/-- C4: `WriteFile` reports success (1 byte written) yet leaves the
bucket unchanged (still empty), so the following `ReadFile` fails with
not-exist instead of returning the data. -/
theorem c4_write_read_roundtrip_fails :
    gcsfsWriteFile rootFS [] (str "a.txt") [120] 0 = .ok (1, []) ∧
    gcsfsReadFile rootFS [] (str "a.txt") =
      .error (.pathError (str "Open") (str "a.txt") .notExist) := by
  decide

/-- C5: after one `Write`, the stream is open (`out` holds the pending
byte) and the first `Close` returns success while leaving the handle, the
stream and the backend untouched — the stream is finalized zero times, not
once — and a second `Close` behaves identically. -/
theorem c5_close_never_finalizes :
    c5written.out = some { buf := [120] } ∧
    gcsWriterFileClose c5written storeC1 = (c5written, storeC1, none) ∧
    gcsWriterFileClose (gcsWriterFileClose c5written storeC1).1 storeC1 =
      (c5written, storeC1, none) := by
  decide

/-! ## Claim C1: counterexample at the root path "." -/

/-- C1 fails as stated at `p = "."`: the path is valid, no object sits at
the derived key "." and no key has the prefix "./", yet `Open(".")` and
`Stat(".")` succeed with a directory handle (the normalized probe prefix
of "." is "", which matches every object), instead of returning
not-found. -/
theorem c1_counterexample :
    validPath (str ".") = true ∧
    storeC1.find? (fun o => o.key == gKey rootFS (str ".")) = none ∧
    storeC1.all (fun o => !goHasPrefix o.key (str "./")) = true ∧
    (gcsfsOpen rootFS storeC1 (str ".")).isOk = true ∧
    (gcsfsStat rootFS storeC1 (str ".")).isOk = true := by
  decide

/-! ## Claim C2: counterexample (duplicate names) -/

/-- C2 fails as stated: in `storeC2` the flat namespace holds both the
object `d/a` and keys under `d/a/`, so `ReadDir("d")` returns two entries
both named `a` (one file, one directory) — sorted, but with a duplicate
name. -/
theorem c2_counterexample :
    gcsfsReadDir rootFS storeC2 (str "d") =
      .ok [{ name := str "a", isDir := false, size := 1, modTime := 7 },
           { name := str "a", isDir := true, size := 0, modTime := 0 }] ∧
    ¬ ([str "a", str "a"].Nodup) := by
  constructor
  · decide
  · decide

/-! ## Claim C6: counterexample (only the immediate parent is checked) -/

/-- C6 fails as stated: `a` is an existing file object and an ancestor
path segment of `a/b/c`, yet `CreateFile("a/b/c", mode)` succeeds with a
writer handle instead of failing with `NotADirectory` — fs.go only probes
`path.Dir(name)` (`a/b`), never the deeper ancestor `a`. -/
theorem c6_counterexample :
    validPath (str "a/b/c") = true ∧
    storeC6.find? (fun o => o.key == str "a") ≠ none ∧
    (gcsfsCreateFile rootFS storeC6 (str "a/b/c") 0).isOk = true := by
  decide

/-! ## Claim C7: counterexample (toPathError is not idempotent) -/

/-- C7 fails as stated: `toPathError` always wraps another `*fs.PathError`
envelope, so applying it twice to `fs.ErrExist` nests two envelopes and
differs from applying it once. -/
theorem c7_counterexample :
    toPathError (toPathError (some .exist) (str "open") (str "t"))
        (str "open") (str "t") ≠
      toPathError (some .exist) (str "open") (str "t") := by
  decide

/-! ## Order lemmas for Go string comparison -/

theorem strLt_cons_iff {x y : Char} {xs ys : Str} :
    strLt (x :: xs) (y :: ys) = true ↔ x < y ∨ (x = y ∧ strLt xs ys = true) := by
  by_cases h1 : x < y
  · simp [strLt, h1]
  · by_cases h2 : y < x
    · have hne : ¬ x = y := fun h => by subst h; exact absurd h2 (lt_irrefl x)
      simp [strLt, h1, h2, hne]
    · have hxy : x = y := le_antisymm (not_lt.mp h2) (not_lt.mp h1)
      simp [strLt, h1, h2, hxy]

theorem strLt_irrefl : ∀ a : Str, strLt a a = false
  | [] => rfl
  | c :: rest => by
    have := strLt_irrefl rest
    simp [strLt, this]

theorem strLt_trans : ∀ a b c : Str,
    strLt a b = true → strLt b c = true → strLt a c = true
  | [], [], _, h1, _ => by simp [strLt] at h1
  | [], _ :: _, [], _, h2 => by simp [strLt] at h2
  | [], _ :: _, _ :: _, _, _ => by simp [strLt]
  | _ :: _, [], _, h1, _ => by simp [strLt] at h1
  | _ :: _, _ :: _, [], _, h2 => by simp [strLt] at h2
  | x :: xs, y :: ys, z :: zs, h1, h2 => by
    rcases strLt_cons_iff.mp h1 with hxy | ⟨hxy, hxs⟩ <;>
      rcases strLt_cons_iff.mp h2 with hyz | ⟨hyz, hys⟩
    · exact strLt_cons_iff.mpr (.inl (lt_trans hxy hyz))
    · exact strLt_cons_iff.mpr (.inl (hyz ▸ hxy))
    · exact strLt_cons_iff.mpr (.inl (hxy ▸ hyz))
    · exact strLt_cons_iff.mpr (.inr ⟨hxy.trans hyz, strLt_trans xs ys zs hxs hys⟩)

theorem strLt_asymm {a b : Str} (h : strLt a b = true) : strLt b a = false := by
  by_contra hc
  have hba : strLt b a = true := by
    cases hh : strLt b a
    · exact absurd hh hc
    · rfl
  have := strLt_trans a b a h hba
  rw [strLt_irrefl] at this
  exact Bool.false_ne_true this

theorem strLt_connex : ∀ a b : Str, a ≠ b → strLt a b = true ∨ strLt b a = true
  | [], [], h => absurd rfl h
  | [], _ :: _, _ => .inl (by simp [strLt])
  | _ :: _, [], _ => .inr (by simp [strLt])
  | x :: xs, y :: ys, h => by
    rcases lt_trichotomy x y with hxy | hxy | hxy
    · exact .inl (strLt_cons_iff.mpr (.inl hxy))
    · subst hxy
      have hne : xs ≠ ys := fun hh => h (by rw [hh])
      rcases strLt_connex xs ys hne with ht | ht
      · exact .inl (strLt_cons_iff.mpr (.inr ⟨rfl, ht⟩))
      · exact .inr (strLt_cons_iff.mpr (.inr ⟨rfl, ht⟩))
    · exact .inr (strLt_cons_iff.mpr (.inl hxy))

theorem strLe_iff {a b : Str} : strLe a b = true ↔ strLt a b = true ∨ a = b := by
  unfold strLe
  rw [Bool.or_eq_true, beq_iff_eq]

theorem strLe_refl (a : Str) : strLe a a = true :=
  strLe_iff.mpr (.inr rfl)

theorem strLe_total (a b : Str) : strLe a b = true ∨ strLe b a = true := by
  by_cases h : a = b
  · exact .inl (strLe_iff.mpr (.inr h))
  · rcases strLt_connex a b h with ht | ht
    · exact .inl (strLe_iff.mpr (.inl ht))
    · exact .inr (strLe_iff.mpr (.inl ht))

theorem strLe_trans {a b c : Str} (h1 : strLe a b = true) (h2 : strLe b c = true) :
    strLe a c = true := by
  rcases strLe_iff.mp h1 with h1 | h1
  · rcases strLe_iff.mp h2 with h2 | h2
    · exact strLe_iff.mpr (.inl (strLt_trans a b c h1 h2))
    · exact strLe_iff.mpr (.inl (h2 ▸ h1))
  · exact h1 ▸ h2

theorem strLt_of_le_of_lt {a b c : Str} (h1 : strLe a b = true)
    (h2 : strLt b c = true) : strLt a c = true := by
  rcases strLe_iff.mp h1 with h1 | h1
  · exact strLt_trans a b c h1 h2
  · exact h1 ▸ h2

theorem strLt_of_lt_of_le {a b c : Str} (h1 : strLt a b = true)
    (h2 : strLe b c = true) : strLt a c = true := by
  rcases strLe_iff.mp h2 with h2 | h2
  · exact strLt_trans a b c h1 h2
  · exact h2 ▸ h1

theorem strLt_ne {a b : Str} (h : strLt a b = true) : a ≠ b := by
  intro hh
  subst hh
  rw [strLt_irrefl] at h
  exact Bool.false_ne_true h

/-- Prepending the same character preserves the prefix relation. -/
theorem prefix_cons {a : Char} {l₁ l₂ : Str} (h : l₁ <+: l₂) :
    (a :: l₁) <+: (a :: l₂) := by
  obtain ⟨w, hw⟩ := h
  exact ⟨w, by rw [List.cons_append, hw]⟩

/-- A prefix is `<=` its extension. -/
theorem strLe_of_pref : ∀ {t k : Str}, t <+: k → strLe t k = true
  | [], k, _ => by cases k <;> simp [strLe, strLt]
  | x :: xs, k, h => by
    obtain ⟨r, hr⟩ := h
    subst hr
    have ih : strLe xs (xs ++ r) = true := strLe_of_pref ⟨r, rfl⟩
    rcases strLe_iff.mp ih with ht | ht
    · exact strLe_iff.mpr (.inl (strLt_cons_iff.mpr (.inr ⟨rfl, ht⟩)))
    · exact strLe_iff.mpr (.inr (by rw [List.cons_append, ← ht]))

/-- A proper prefix is `<` its extension. -/
theorem strLt_of_proper_pref {t k : Str} (h : t <+: k) (hne : t ≠ k) :
    strLt t k = true := by
  rcases strLe_iff.mp (strLe_of_pref h) with ht | ht
  · exact ht
  · exact absurd ht hne

/-- Strings sharing a prefix `t` sandwich every string between them:
if `t <+: x`, `t <+: z` and `x <= y <= z` then `t <+: y`. -/
theorem prefix_of_between : ∀ (t x y z : Str), strLe x y = true → strLe y z = true →
    t <+: x → t <+: z → t <+: y
  | [], _, _, _, _, _, _, _ => List.nil_prefix
  | c :: t', x, y, z, hxy, hyz, hx, hz => by
    obtain ⟨rx, hrx⟩ := hx
    obtain ⟨rz, hrz⟩ := hz
    cases y with
    | nil =>
      subst hrx
      rcases strLe_iff.mp hxy with ht | ht
      · simp [strLt] at ht
      · simp at ht
    | cons d y' =>
      subst hrx hrz
      have hcd : c = d := by
        rcases strLe_iff.mp hxy with ht | ht
        · rcases strLt_cons_iff.mp ht with h1 | ⟨h1, _⟩
          · rcases strLe_iff.mp hyz with ht2 | ht2
            · rcases strLt_cons_iff.mp ht2 with h2 | ⟨h2, _⟩
              · exact absurd (lt_trans h1 h2) (lt_irrefl c)
              · exact absurd (h2 ▸ h1) (lt_irrefl c)
            · cases ht2
              exact absurd h1 (lt_irrefl c)
          · exact h1
        · cases ht
          rfl
      subst hcd
      have hxy' : strLe (t' ++ rx) y' = true := by
        rcases strLe_iff.mp hxy with ht | ht
        · rcases strLt_cons_iff.mp ht with h1 | ⟨_, h1⟩
          · exact absurd h1 (lt_irrefl c)
          · exact strLe_iff.mpr (.inl h1)
        · cases ht
          exact strLe_refl _
      have hyz' : strLe y' (t' ++ rz) = true := by
        rcases strLe_iff.mp hyz with ht | ht
        · rcases strLt_cons_iff.mp ht with h1 | ⟨_, h1⟩
          · exact absurd h1 (lt_irrefl c)
          · exact strLe_iff.mpr (.inl h1)
        · cases ht
          exact strLe_refl _
      have := prefix_of_between t' (t' ++ rx) y' (t' ++ rz) hxy' hyz'
        ⟨rx, rfl⟩ ⟨rz, rfl⟩
      exact prefix_cons this

/-- If `t` is a prefix of `b` but not of `a`, and `a < b`, then `a < t`. -/
theorem strLt_strengthen_to_pref : ∀ (t a b : Str), ¬ (t <+: a) → t <+: b →
    strLt a b = true → strLt a t = true
  | [], a, _, hna, _, _ => absurd List.nil_prefix hna
  | c :: t', [], _, _, _, _ => by simp [strLt]
  | c :: t', x :: a', b, hna, hb, hab => by
    obtain ⟨r, hr⟩ := hb
    subst hr
    rcases strLt_cons_iff.mp hab with h1 | ⟨h1, h2⟩
    · exact strLt_cons_iff.mpr (.inl h1)
    · subst h1
      have hna' : ¬ (t' <+: a') := fun hh => hna (prefix_cons hh)
      exact strLt_cons_iff.mpr
        (.inr ⟨rfl, strLt_strengthen_to_pref t' a' (t' ++ r) hna' ⟨r, rfl⟩ h2⟩)

/-- Comparison against a string factors through any mutually
non-prefix string `u` that prefixes it: if neither of `t`, `u` prefixes
the other, `u <+: m` and `t < m`, then `t < u`. -/
theorem strLt_through_pref : ∀ (t u m : Str), ¬ (t <+: u) → ¬ (u <+: t) →
    u <+: m → strLt t m = true → strLt t u = true
  | t, [], _, _, hnu, _, _ => absurd List.nil_prefix hnu
  | [], _ :: _, _, hnt, _, _, _ => absurd List.nil_prefix hnt
  | x :: t', y :: u', m, hnt, hnu, hu, htm => by
    obtain ⟨r, hr⟩ := hu
    subst hr
    rcases strLt_cons_iff.mp htm with h1 | ⟨h1, h2⟩
    · exact strLt_cons_iff.mpr (.inl h1)
    · subst h1
      have hnt' : ¬ (t' <+: u') := fun hh => hnt (prefix_cons hh)
      have hnu' : ¬ (u' <+: t') := fun hh => hnu (prefix_cons hh)
      exact strLt_cons_iff.mpr
        (.inr ⟨rfl, strLt_through_pref t' u' (u' ++ r) hnt' hnu' ⟨r, rfl⟩ h2⟩)

/-! ## Path lemmas: a valid path is already clean -/

theorem splitOnSlash_ne_nil : ∀ s : Str, splitOnSlash s ≠ []
  | [] => by simp [splitOnSlash]
  | c :: rest => by
    by_cases h : c = '/'
    · simp [splitOnSlash, h]
    · simp only [splitOnSlash, if_neg h]
      cases hs : splitOnSlash rest <;> simp

theorem joinSegs_cons (s : Str) (l : List Str) (hl : l ≠ []) :
    joinSegs (s :: l) = s ++ '/' :: joinSegs l := by
  cases l with
  | nil => exact absurd rfl hl
  | cons a as => rfl

theorem joinSegs_splitOnSlash : ∀ s : Str, joinSegs (splitOnSlash s) = s
  | [] => rfl
  | c :: rest => by
    by_cases h : c = '/'
    · subst h
      have h1 : splitOnSlash ('/' :: rest) = [] :: splitOnSlash rest := by
        simp [splitOnSlash]
      rw [h1, joinSegs_cons _ _ (splitOnSlash_ne_nil rest),
        joinSegs_splitOnSlash rest]
      rfl
    · simp only [splitOnSlash, if_neg h]
      cases hs : splitOnSlash rest with
      | nil => exact absurd hs (splitOnSlash_ne_nil rest)
      | cons a as =>
        have ih : joinSegs (a :: as) = rest := by
          rw [← hs, joinSegs_splitOnSlash rest]
        cases as with
        | nil =>
          simp only [joinSegs] at ih ⊢
          rw [ih]
        | cons b bs =>
          rw [joinSegs_cons _ _ (by simp)] at ih ⊢
          rw [List.cons_append, ih]

/-- A path element of a valid path: non-empty, not "." and not "..". -/
def plainSeg (e : Str) : Prop := e ≠ [] ∧ e ≠ ['.'] ∧ e ≠ ['.', '.']

theorem validPath_segs {s : Str} (hv : validPath s = true) (hdot : s ≠ ['.']) :
    ∀ e ∈ splitOnSlash s, plainSeg e := by
  unfold validPath at hv
  rw [Bool.or_eq_true] at hv
  rcases hv with hv | hv
  · rw [decide_eq_true_eq] at hv
    exact absurd hv hdot
  · rw [List.all_eq_true] at hv
    intro e he
    have h := hv e he
    simp only [Bool.not_eq_true', Bool.or_eq_false_iff,
      decide_eq_false_iff_not] at h
    exact ⟨h.1.1, h.1.2, h.2⟩

theorem foldl_cleanPush_plain (rooted : Bool) :
    ∀ (segs : List Str) (acc : List Str), (∀ e ∈ segs, plainSeg e) →
      segs.foldl (cleanPush rooted) acc = segs.reverse ++ acc
  | [], acc, _ => by simp
  | e :: rest, acc, h => by
    have he := h e (by simp)
    have hstep : cleanPush rooted acc e = e :: acc := by
      unfold cleanPush
      rw [if_neg (by push_neg; exact ⟨he.1, he.2.1⟩), if_neg he.2.2]
    simp only [List.foldl_cons, hstep]
    rw [foldl_cleanPush_plain rooted rest (e :: acc) (fun x hx => h x (by simp [hx]))]
    simp

theorem validPath_ne_nil {s : Str} (hv : validPath s = true) : s ≠ [] := by
  intro h
  subst h
  simp [validPath, splitOnSlash] at hv

theorem validPath_head_ne_slash {s : Str} (hv : validPath s = true)
    (hdot : s ≠ ['.']) : s.head? ≠ some '/' := by
  intro hh
  cases s with
  | nil => simp at hh
  | cons c rest =>
    simp only [List.head?_cons, Option.some.injEq] at hh
    subst hh
    have := validPath_segs hv hdot [] (by simp [splitOnSlash])
    exact this.1 rfl

theorem clean_of_valid {s : Str} (hv : validPath s = true) (hdot : s ≠ ['.']) :
    goClean s = s := by
  have hne := validPath_ne_nil hv
  have hsegs := validPath_segs hv hdot
  have hrooted : decide (s.head? = some '/') = false := by
    rw [decide_eq_false_iff_not]
    exact validPath_head_ne_slash hv hdot
  unfold goClean
  rw [if_neg hne, hrooted]
  rw [foldl_cleanPush_plain false (splitOnSlash s) [] hsegs]
  simp only [List.append_nil, List.reverse_reverse]
  rw [joinSegs_splitOnSlash]
  unfold cleanAssemble
  rw [if_neg hne]
  rfl

theorem splitOnSlash_append_slash : ∀ s : Str,
    splitOnSlash (s ++ ['/']) = splitOnSlash s ++ [[]]
  | [] => rfl
  | c :: rest => by
    by_cases h : c = '/'
    · simp only [List.cons_append, splitOnSlash, if_pos h]
      rw [show rest.append ['/'] = rest ++ ['/'] from rfl,
        splitOnSlash_append_slash rest]
    · simp only [List.cons_append, splitOnSlash, if_neg h]
      rw [show rest.append ['/'] = rest ++ ['/'] from rfl,
        splitOnSlash_append_slash rest]
      cases hs : splitOnSlash rest with
      | nil => exact absurd hs (splitOnSlash_ne_nil rest)
      | cons a as => simp

theorem validPath_no_trailing_slash {s : Str} (hv : validPath s = true)
    (hdot : s ≠ ['.']) : goHasSuffix s ['/'] = false := by
  cases hcase : goHasSuffix s ['/']
  · rfl
  · exfalso
    unfold goHasSuffix at hcase
    have hsfx : ['/'] <:+ s := by
      rw [← List.isSuffixOf_iff_suffix]
      exact hcase
    obtain ⟨q, hq⟩ := hsfx
    have : [] ∈ splitOnSlash s := by
      rw [← hq, splitOnSlash_append_slash]
      simp
    exact (validPath_segs hv hdot [] this).1 rfl

theorem normalizePrefix_of_valid {s : Str} (hv : validPath s = true)
    (hdot : s ≠ ['.']) : normalizePrefix s = s ++ ['/'] := by
  unfold normalizePrefix
  rw [clean_of_valid hv hdot]
  have hne := validPath_ne_nil hv
  have hslash : s ≠ ['/'] := by
    intro h
    subst h
    exact absurd rfl ((validPath_segs hv hdot [] (by simp [splitOnSlash])).1)
  rw [if_neg (by push_neg; exact ⟨hdot, hslash⟩)]
  rw [if_pos ⟨hne, by rw [validPath_no_trailing_slash hv hdot]; simp⟩]

theorem gKey_root {s : Str} (hv : validPath s = true) (hdot : s ≠ ['.']) :
    gKey rootFS s = s := by
  have hne := validPath_ne_nil hv
  show goJoin [] s = s
  unfold goJoin
  rw [if_neg (fun hh => hne hh.2), if_pos rfl]
  exact clean_of_valid hv hdot

/-! ## Base-name lemmas -/

theorem takeWhile_append_of_all {p : Char → Bool} :
    ∀ (xs r : Str), (∀ c ∈ xs, p c = true) →
      (xs ++ r).takeWhile p = xs ++ r.takeWhile p
  | [], r, _ => rfl
  | x :: xs, r, h => by
    have hx := h x (by simp)
    rw [List.cons_append, List.takeWhile_cons, if_pos hx,
      takeWhile_append_of_all xs r (fun c hc => h c (by simp [hc]))]
    simp

theorem dropWhile_cons_of_neg {p : Char → Bool} {x : Char} {xs : Str}
    (h : p x = false) : (x :: xs).dropWhile p = x :: xs := by
  simp [List.dropWhile_cons, h]

theorem takeWhile_all_of_all {p : Char → Bool} :
    ∀ xs : Str, (∀ c ∈ xs, p c = true) → xs.takeWhile p = xs
  | [], _ => rfl
  | x :: xs, h => by
    rw [List.takeWhile_cons, if_pos (h x (by simp)),
      takeWhile_all_of_all xs (fun c hc => h c (by simp [hc]))]

/-- The head of a non-empty `dropWhile` result falsifies the predicate. -/
theorem dropWhile_head_not {p : Char → Bool} :
    ∀ (l : Str) (d : Char) (ds : Str), l.dropWhile p = d :: ds → p d = false
  | [], _, _, h => by simp [List.dropWhile] at h
  | x :: xs, d, ds, h => by
    by_cases hx : p x = true
    · rw [List.dropWhile_cons, if_pos hx] at h
      exact dropWhile_head_not xs d ds h
    · rw [List.dropWhile_cons, if_neg hx] at h
      cases h
      exact Bool.not_eq_true _ ▸ hx

/-- `path.Base` never returns the empty string. -/
theorem goBase_ne_nil (s : Str) : goBase s ≠ [] := by
  unfold goBase
  by_cases hs : s = []
  · simp [hs]
  · rw [if_neg hs]
    by_cases ht : (s.reverse.dropWhile (fun c => c == '/')).reverse = []
    · simp [ht]
    · rw [if_neg ht]
      rw [List.reverse_reverse]
      cases hd : s.reverse.dropWhile (fun c => c == '/') with
      | nil => rw [hd] at ht; simp at ht
      | cons d ds =>
        have hdq : (d == '/') = false := dropWhile_head_not _ d ds hd
        simp only [List.takeWhile_cons, hdq, Bool.not_false, List.reverse_cons]
        simp

/-- The base name of `p ++ x` is `x`, when `p` is empty or ends in a
slash and `x` is non-empty with no slash in it. -/
theorem goBase_append (p x : Str) (hp : p = [] ∨ goHasSuffix p ['/'] = true)
    (hx : x ≠ []) (hxs : ∀ c ∈ x, (c == '/') = false) : goBase (p ++ x) = x := by
  have hxr : ∀ c ∈ x.reverse, (c == '/') = false := by
    intro c hc
    exact hxs c (List.mem_reverse.mp hc)
  have hdw : (x.reverse ++ p.reverse).dropWhile (fun c => c == '/') =
      x.reverse ++ p.reverse := by
    cases hxd : x.reverse with
    | nil => exact absurd (by rw [← List.reverse_reverse x, hxd]; rfl) hx
    | cons d ds =>
      have hd : (d == '/') = false := hxr d (by rw [hxd]; simp)
      rw [List.cons_append, List.dropWhile_cons, if_neg (by rw [hd]; simp)]
  unfold goBase
  rw [if_neg (by intro h; exact hx (List.append_eq_nil.mp h).2)]
  rw [List.reverse_append, hdw]
  rw [if_neg (by
    rw [List.reverse_eq_nil_iff]
    intro h
    exact hx (by
      have := (List.append_eq_nil.mp h).1
      rw [List.reverse_eq_nil_iff] at this
      exact this))]
  rw [List.reverse_reverse]
  rw [takeWhile_append_of_all x.reverse p.reverse (by
    intro c hc
    rw [hxr c hc]
    rfl)]
  rcases hp with hp | hp
  · subst hp
    simp
  · obtain ⟨q, hq⟩ : ['/'] <:+ p := by
      rw [← List.isSuffixOf_iff_suffix]
      exact hp
    rw [← hq]
    simp [List.takeWhile_cons]

/-! ## Claim C7 amended -/

theorem errIs_pathError_objNE (op nm : Str) (inner : GoError) :
    errIs (.pathError op nm inner) .objectNotExist = errIs inner .objectNotExist := by
  simp only [errIs]
  rw [show decide (GoError.pathError op nm inner = GoError.objectNotExist) = false
    from rfl]
  simp

theorem isObjectNotExist_toPathErrE (e : GoError) (op nm : Str) :
    isObjectNotExist (toPathErrE e op nm) = false := by
  unfold toPathErrE
  by_cases h : isObjectNotExist e = true
  · rw [if_pos h]
    rfl
  · rw [if_neg h]
    unfold isObjectNotExist
    rw [errIs_pathError_objNE]
    exact Bool.not_eq_true _ ▸ h

/-- C7 amended: `toObjectNotExistIfNoExist` is idempotent; both functions
map nil to nil; `toPathError` is not literally idempotent (it nests
another envelope, see the counterexample) but is idempotent *in kind* —
the sentinel at the bottom of the chain is unchanged by a second
application; and neither function alters an error that is not a
not-found signal (`toPathError` preserves it as the envelope's inner
error, `toObjectNotExistIfNoExist` returns it unchanged). -/
theorem c7_amended (e : GoError) (op nm : Str) :
    toObjectNotExistIfNoExist (toObjectNotExistIfNoExist (some e)) =
      toObjectNotExistIfNoExist (some e) ∧
    toPathError none op nm = none ∧
    toObjectNotExistIfNoExist none = none ∧
    baseKind (toPathErrE (toPathErrE e op nm) op nm) =
      baseKind (toPathErrE e op nm) ∧
    (isObjectNotExist e = false → toPathErrE e op nm = .pathError op nm e) ∧
    (isNotExist e = false → toObjectNotExistIfNoExist (some e) = some e) := by
  refine ⟨?_, rfl, rfl, ?_, ?_, ?_⟩
  · by_cases h : isNotExist e = true
    · simp only [toObjectNotExistIfNoExist, if_pos h]
      rfl
    · simp only [toObjectNotExistIfNoExist, if_neg h]
  · have hiso := isObjectNotExist_toPathErrE e op nm
    conv_lhs => rw [toPathErrE]
    rw [if_neg (by rw [hiso]; simp)]
    rfl
  · intro h
    unfold toPathErrE
    rw [if_neg (by rw [h]; simp)]
  · intro h
    simp only [toObjectNotExistIfNoExist]
    rw [if_neg (by rw [h]; simp)]

/-! ## Claim C1 amended -/

/-- The directory probe on a prefix with no matching objects: the listing
returns zero entries and `open` reports not-found, whatever the requested
buffer size. -/
theorem dirOpen_empty (store : Store) (d : GcsDir) (n : Int)
    (hc : d.cache = []) (he : d.eof = false)
    (hpfx : ∀ o ∈ store, ¬ (d.pfx <+: o.key)) :
    dirOpen store d n = .error (.pathError (str "Open") d.pfx .notExist) := by
  have hfilter : store.filter
      (fun o => goHasPrefix o.key d.pfx && strLe d.offset o.key) = [] := by
    rw [List.filter_eq_nil_iff]
    intro o ho
    rw [Bool.and_eq_true, goHasPrefix]
    intro ⟨h1, _⟩
    exact hpfx o ho (List.isPrefixOf_iff_prefix.mp h1)
  have hq : gcsObjects
      { delimiter := ['/'], pfx := d.pfx, startOffset := d.offset,
        includeTrailingDelimiter := false } store = [] := by
    unfold gcsObjects
    simp only [hfilter]
    rfl
  unfold dirOpen dirList
  rw [if_neg (by rw [hc]; simp), if_neg (by rw [he]; simp)]
  unfold dirListQuery
  simp only [hq, listLoop]
  rfl

/-- C1 amended: for every *valid path other than "."* with no object at
the derived key and no object under `p ++ "/"`, both `Open(p)` and
`Stat(p)` return the `*fs.PathError` with `fs.ErrNotExist` produced by
the directory listing returning zero entries.  (For `p = "."` the claim
fails as stated — see the counterexample — because "."'s probe prefix
normalizes to the empty string, which matches every object.) -/
theorem c1_amended (store : Store) (p : Str)
    (hv : validPath p = true) (hdot : p ≠ str ".")
    (hobj : ∀ o ∈ store, o.key ≠ gKey rootFS p)
    (hpfx : ∀ o ∈ store, ¬ ((p ++ ['/']) <+: o.key)) :
    gcsfsOpen rootFS store p =
      .error (.pathError (str "Open") (p ++ ['/']) .notExist) ∧
    gcsfsStat rootFS store p =
      .error (.pathError (str "Open") (p ++ ['/']) .notExist) := by
  have hkey : gKey rootFS p = p := gKey_root hv hdot
  have hnp : normalizePrefix (gKey rootFS p) = p ++ ['/'] := by
    rw [hkey]
    exact normalizePrefix_of_valid hv hdot
  have hfind : store.find? (fun o => o.key == gKey rootFS p) = none := by
    rw [List.find?_eq_none]
    intro o ho
    simp only [beq_eq_false_iff_ne, Bool.not_eq_true, ne_eq]
    exact hobj o ho
  have hof : openFile rootFS store p =
      .error (.pathError (str "Open") p .notExist) := by
    unfold openFile
    rw [if_neg (by rw [hv]; simp)]
    unfold attrsGet
    rw [hfind]
    rfl
  have hd : newGcsDir rootFS p =
      { pfx := p ++ ['/'], offset := [], cache := [], eof := false } := by
    unfold newGcsDir
    rw [hnp]
  have hdo : ∀ n : Int, dirOpen store (newGcsDir rootFS p) n =
      .error (.pathError (str "Open") (p ++ ['/']) .notExist) := by
    intro n
    rw [hd]
    exact dirOpen_empty store _ n rfl rfl hpfx
  have hin : isNotExist (GoError.pathError (str "Open") p .notExist) = true := rfl
  constructor
  · simp only [gcsfsOpen, hof, hin, if_true, hdo]
  · simp only [gcsfsStat, hof, hin, if_true, hdo]

/-- Witness for C1 amended: the path `nope` against the two-object bucket
`storeC2`. -/
theorem c1_witness :
    gcsfsOpen rootFS storeC2 (str "nope") =
      .error (.pathError (str "Open") (str "nope" ++ ['/']) .notExist) ∧
    gcsfsStat rootFS storeC2 (str "nope") =
      .error (.pathError (str "Open") (str "nope" ++ ['/']) .notExist) :=
  c1_amended storeC2 (str "nope") (by decide) (by decide) (by decide) (by decide)

/-! ## Claim C6 amended -/

theorem goClean_ne_nil (s : Str) : goClean s ≠ [] := by
  unfold goClean cleanAssemble
  by_cases hs : s = []
  · simp [hs]
  · rw [if_neg hs]
    split
    · split <;> simp
    · split
      · simp
      · assumption

theorem strLt_nil_right (x : Str) : strLt x [] = false := by
  cases x <;> rfl

theorem strLe_nil_right (x : Str) : strLe x [] = (x == []) := by
  unfold strLe
  rw [strLt_nil_right]
  simp

theorem newContent_name_ne_nil (a : ObjectAttrs) : (newContent a).name ≠ [] := by
  unfold newContent newDirContent newFileContent
  by_cases h : a.name = [] <;> simp [h, goBase_ne_nil]

/-- With a fresh offset and `n = 1`, the iterator loop emits exactly the
first listed entry. -/
theorem listLoop_one (a : ObjectAttrs) (rest : List ObjectAttrs) :
    listLoop [] 1 (a :: rest) [] = ([newContent a], false) := by
  have hname : strLe (newContent a).name [] = false := by
    rw [strLe_nil_right]
    simp only [beq_eq_false_iff_ne, ne_eq]
    exact newContent_name_ne_nil a
  simp only [listLoop, hname]
  simp

theorem foldKeys_cons_ne_nil (p : Str) (itd : Bool) (o : GObj) (rest : List GObj) :
    foldKeys p itd (o :: rest) none ≠ [] := by
  cases h : foldTarget p o.key with
  | none => simp [foldKeys, h]
  | some t =>
    simp only [foldKeys, h]
    rw [if_neg (by simp)]
    simp

/-- A non-empty filtered listing: `dirOpen` with a one-entry probe
succeeds. -/
theorem dirOpen_one_ok (store : Store) (d : GcsDir)
    (hc : d.cache = []) (he : d.eof = false) (ho : d.offset = [])
    (hne : ∃ o ∈ store, (d.pfx <+: o.key)) :
    ∃ d', dirOpen store d 1 = .ok d' := by
  have hfilter : store.filter
      (fun o => goHasPrefix o.key d.pfx && strLe d.offset o.key) ≠ [] := by
    intro hf
    obtain ⟨o, homem, hok⟩ := hne
    rw [List.filter_eq_nil_iff] at hf
    apply hf o homem
    rw [Bool.and_eq_true, goHasPrefix, List.isPrefixOf_iff_prefix]
    exact ⟨hok, by rw [ho]; cases o.key <;> simp [strLe, strLt]⟩
  have hsort : ((store.filter
      (fun o => goHasPrefix o.key d.pfx && strLe d.offset o.key)).insertionSort
      (fun a b => strLe a.key b.key = true)) ≠ [] := by
    intro hs
    apply hfilter
    have := List.perm_insertionSort
      (fun (a b : GObj) => strLe a.key b.key = true)
      (store.filter (fun o => goHasPrefix o.key d.pfx && strLe d.offset o.key))
    rw [hs] at this
    exact this.symm.eq_nil
  have hobj : gcsObjects
      { delimiter := ['/'], pfx := d.pfx, startOffset := d.offset,
        includeTrailingDelimiter := false } store ≠ [] := by
    unfold gcsObjects
    simp only []
    cases hl : ((store.filter
        (fun o => goHasPrefix o.key d.pfx && strLe d.offset o.key)).insertionSort
        (fun a b => strLe a.key b.key = true)) with
    | nil => exact absurd hl hsort
    | cons x xs =>
      simp only [if_true]
      exact foldKeys_cons_ne_nil _ _ x xs
  unfold dirOpen dirList
  rw [if_neg (by rw [hc]; simp), if_neg (by rw [he]; simp)]
  unfold dirListQuery
  cases hg : gcsObjects
      { delimiter := ['/'], pfx := d.pfx, startOffset := d.offset,
        includeTrailingDelimiter := false } store with
  | nil => exact absurd hg hobj
  | cons a rest =>
    rw [ho] at hg ⊢
    simp only [hg, listLoop_one]
    exact ⟨_, rfl⟩

/-- C6 amended: the mode argument never influences `CreateFile`; the
`IsADirectory` failure occurs when the name is a synthetic directory *and
no object sits at the name's own key*; the `NotADirectory` failure occurs
when an object sits at the *immediate parent* key (deeper ancestors are
never probed — see the counterexample) and the earlier directory branch
did not fire. -/
theorem c6_amended (store : Store) (nm : Str) (m1 m2 : Nat)
    (hv : validPath nm = true) (hvp : validPath (goDir nm) = true) :
    (gcsfsCreateFile rootFS store nm m1 = gcsfsCreateFile rootFS store nm m2) ∧
    (store.find? (fun o => o.key == gKey rootFS nm) = none →
      (∃ o ∈ store, (normalizePrefix (gKey rootFS nm)) <+: o.key) →
      gcsfsCreateFile rootFS store nm m1 =
        .error (.pathError (str "CreateFile") nm .eisdir)) ∧
    ((∃ o ∈ store, o.key = gKey rootFS (goDir nm)) →
      ((∃ o ∈ store, o.key = gKey rootFS nm) ∨
        ∀ o ∈ store, ¬ (normalizePrefix (gKey rootFS nm)) <+: o.key) →
      gcsfsCreateFile rootFS store nm m1 =
        .error (.pathError (str "CreateFile") (goDir nm) .enotdir)) := by
  refine ⟨rfl, ?_, ?_⟩
  · intro hnone hchild
    have hof : openFile rootFS store nm =
        .error (.pathError (str "Open") nm .notExist) := by
      unfold openFile attrsGet
      rw [if_neg (by rw [hv]; simp), hnone]
      rfl
    obtain ⟨d', hd'⟩ := dirOpen_one_ok store (newGcsDir rootFS nm) rfl rfl rfl
      (by
        obtain ⟨o, homem, hok⟩ := hchild
        exact ⟨o, homem, hok⟩)
    have hin : isNotExist (GoError.pathError (str "Open") nm .notExist) = true := rfl
    show createFile rootFS store nm = _
    unfold createFile
    rw [if_neg (by rw [hv]; simp)]
    simp only [hof, hin, Bool.not_true, hd']
    rfl
  · intro hparent hearly
    have hdir_ne : goDir nm ≠ [] := by
      unfold goDir
      exact goClean_ne_nil _
    have hkeyp : gKey rootFS (goDir nm) ≠ [] := by
      show goJoin [] (goDir nm) ≠ []
      unfold goJoin
      rw [if_neg (fun hh => hdir_ne hh.2), if_pos rfl]
      exact goClean_ne_nil _
    obtain ⟨op, hopmem, hopkey⟩ := hparent
    have hfindp : ∃ o2, store.find? (fun o => o.key == gKey rootFS (goDir nm))
        = some o2 ∧ o2.key = gKey rootFS (goDir nm) := by
      have : store.find? (fun o => o.key == gKey rootFS (goDir nm)) ≠ none := by
        rw [Ne, List.find?_eq_none]
        intro hall
        exact hall op hopmem (by rw [hopkey]; simp)
      cases hf : store.find? (fun o => o.key == gKey rootFS (goDir nm)) with
      | none => exact absurd hf this
      | some o2 =>
        refine ⟨o2, rfl, ?_⟩
        have := List.find?_some hf
        rw [beq_iff_eq] at this
        exact this
    obtain ⟨o2, hf2, hk2⟩ := hfindp
    have hofp : openFile rootFS store (goDir nm) = .ok (newGcsFile (objAttrs o2)) := by
      unfold openFile attrsGet
      rw [if_neg (by rw [hvp]; simp), hf2]
      simp only []
      rw [if_neg (by
        intro ⟨h1, _⟩
        exact hkeyp (by rw [← hk2]; exact h1))]
    have hearlyNone :
        (match openFile rootFS store nm with
          | .error e =>
            if ¬ isNotExist e = true then
              some (toPathErrE e (str "CreateFile") nm)
            else
              match dirOpen store (newGcsDir rootFS nm) 1 with
              | .ok _ => some (toPathErrE .eisdir (str "CreateFile") nm)
              | .error _ => none
          | .ok _ => none) = none := by
      rcases hearly with hsome | hnochild
      · obtain ⟨o, homem, hok⟩ := hsome
        have hfind : ∃ o2, store.find? (fun o3 => o3.key == gKey rootFS nm)
            = some o2 ∧ o2.key = gKey rootFS nm := by
          have : store.find? (fun o3 => o3.key == gKey rootFS nm) ≠ none := by
            rw [Ne, List.find?_eq_none]
            intro hall
            exact hall o homem (by rw [hok]; simp)
          cases hf : store.find? (fun o3 => o3.key == gKey rootFS nm) with
          | none => exact absurd hf this
          | some o3 =>
            refine ⟨o3, rfl, ?_⟩
            have := List.find?_some hf
            rw [beq_iff_eq] at this
            exact this
        obtain ⟨o3, hf3, hk3⟩ := hfind
        have hkeynm : gKey rootFS nm ≠ [] := by
          show goJoin [] nm ≠ []
          unfold goJoin
          rw [if_neg (fun hh => validPath_ne_nil hv hh.2), if_pos rfl]
          exact goClean_ne_nil _
        have hofnm : openFile rootFS store nm = .ok (newGcsFile (objAttrs o3)) := by
          unfold openFile attrsGet
          rw [if_neg (by rw [hv]; simp), hf3]
          simp only []
          rw [if_neg (by
            intro ⟨h1, _⟩
            exact hkeynm (by rw [← hk3]; exact h1))]
        rw [hofnm]
      · have hnone : store.find? (fun o3 => o3.key == gKey rootFS nm) = none ∨
            store.find? (fun o3 => o3.key == gKey rootFS nm) ≠ none := by
          tauto
        rcases hnone with hnone | hsome2
        · have hofnm : openFile rootFS store nm =
              .error (.pathError (str "Open") nm .notExist) := by
            unfold openFile attrsGet
            rw [if_neg (by rw [hv]; simp), hnone]
            rfl
          rw [hofnm]
          have hin : isNotExist (GoError.pathError (str "Open") nm .notExist)
              = true := rfl
          have hdoe := dirOpen_empty store (newGcsDir rootFS nm) 1 rfl rfl
            (by
              intro o homem
              exact hnochild o homem)
          simp only [hin, Bool.not_true, hdoe]
          simp
        · cases hf : store.find? (fun o3 => o3.key == gKey rootFS nm) with
          | none => exact absurd hf hsome2
          | some o3 =>
            have hk3 : o3.key = gKey rootFS nm := by
              have := List.find?_some hf
              rw [beq_iff_eq] at this
              exact this
            have hkeynm : gKey rootFS nm ≠ [] := by
              show goJoin [] nm ≠ []
              unfold goJoin
              rw [if_neg (fun hh => validPath_ne_nil hv hh.2), if_pos rfl]
              exact goClean_ne_nil _
            have hofnm : openFile rootFS store nm
                = .ok (newGcsFile (objAttrs o3)) := by
              unfold openFile attrsGet
              rw [if_neg (by rw [hv]; simp), hf]
              simp only []
              rw [if_neg (by
                intro ⟨h1, _⟩
                exact hkeynm (by rw [← hk3]; exact h1))]
            rw [hofnm]
    show createFile rootFS store nm = _
    unfold createFile
    rw [if_neg (by rw [hv]; simp)]
    simp only [hearlyNone, hofp]
    rfl

/-- Witness for C6 amended: the directory `d` of `storeC2` (EISDIR leg)
with modes 3 and 4. -/
theorem c6_witness :
    (gcsfsCreateFile rootFS storeC2 (str "d") 3 =
      gcsfsCreateFile rootFS storeC2 (str "d") 4) ∧
    (storeC2.find? (fun o => o.key == gKey rootFS (str "d")) = none →
      (∃ o ∈ storeC2, (normalizePrefix (gKey rootFS (str "d"))) <+: o.key) →
      gcsfsCreateFile rootFS storeC2 (str "d") 3 =
        .error (.pathError (str "CreateFile") (str "d") .eisdir)) ∧
    ((∃ o ∈ storeC2, o.key = gKey rootFS (goDir (str "d"))) →
      ((∃ o ∈ storeC2, o.key = gKey rootFS (str "d")) ∨
        ∀ o ∈ storeC2, ¬ (normalizePrefix (gKey rootFS (str "d"))) <+: o.key) →
      gcsfsCreateFile rootFS storeC2 (str "d") 3 =
        .error (.pathError (str "CreateFile") (goDir (str "d")) .enotdir)) :=
  c6_amended storeC2 (str "d") 3 4 (by decide) (by decide)

/-! ## Claim C9: RemoveAll -/

theorem strLe_nil_left (x : Str) : strLe [] x = true := by
  cases x <;> simp [strLe, strLt]

theorem goJoin_nil_of_clean {k : Str} (h : goClean k = k) : goJoin [] k = k := by
  unfold goJoin
  by_cases hk : k = []
  · subst hk
    exact absurd h (by intro hh; cases hh)
  · rw [if_neg (fun hh => hk hh.2), if_pos rfl]
    exact h

theorem cleanKey_ne_nil {k : Str} (h : goClean k = k) : k ≠ [] := by
  intro hk
  subst hk
  cases h

/-- One `RemoveAll` walk step: no listing fault here, the deletion of the
head key succeeds, the object is present, so the walk continues on the
shrunken store. -/
theorem raLoop_step (dirName : Str) (dF : Str → Option GoError)
    (lF : Option (Nat × GoError)) (i : Nat) (st : Store) (o : GObj)
    (rest : List GObj)
    (hlf : listFaultAt lF i = none)
    (hclean : goClean o.key = o.key)
    (hdf : dF o.key = none)
    (hin : st.any (fun o2 => o2.key == o.key) = true) :
    raLoop dirName dF lF i st ((o :: rest).map objAttrs) =
      raLoop dirName dF lF (i + 1)
        (st.filter (fun o2 => ¬(o2.key == o.key))) (rest.map objAttrs) := by
  have hnm : goJoin (objAttrs o).pfx (objAttrs o).name = o.key :=
    goJoin_nil_of_clean hclean
  simp only [List.map_cons, raLoop, hlf, hnm, hdf, hin, if_true]

/-- Deleting one key and then filtering out the remaining listed keys is
filtering out all listed keys at once. -/
theorem filter_step_compose (st : Store) (o : GObj) (rest : List GObj) :
    (st.filter (fun o2 => ¬(o2.key == o.key))).filter
        (fun o2 => !(rest.any (fun q => q.key == o2.key))) =
      st.filter (fun o2 => !((o :: rest).any (fun q => q.key == o2.key))) := by
  rw [List.filter_filter]
  apply List.filter_congr
  intro a _
  simp only [List.any_cons, Bool.not_or]
  by_cases h : a.key = o.key
  · have h1 : (o.key == a.key) = true := by simp [h]
    have h2 : (decide ¬((a.key == o.key) = true)) = false := by simp [h]
    rw [h1, h2]
    simp
  · have h1 : (o.key == a.key) = false := by
      rw [beq_eq_false_iff_ne]
      exact fun hh => h hh.symm
    have h2 : (decide ¬((a.key == o.key) = true)) = true := by simp [h]
    rw [h1, h2]
    simp [Bool.and_comm]

/-- Successful walk: every listed object is deleted. -/
theorem raLoop_success (dirName : Str) (dF : Str → Option GoError) :
    ∀ (items : List GObj) (i : Nat) (st : Store),
      (∀ o ∈ items, goClean o.key = o.key) →
      (∀ o ∈ items, o.key ∈ st.map GObj.key) →
      (items.map GObj.key).Nodup →
      (∀ o ∈ items, dF o.key = none) →
      raLoop dirName dF none i st (items.map objAttrs) =
        (st.filter (fun o2 => !(items.any (fun q => q.key == o2.key))), none)
  | [], i, st, _, _, _, _ => by
    simp [raLoop, listFaultAt]
  | o :: rest, i, st, hclean, hpres, hnd, hdf => by
    have hin : st.any (fun o2 => o2.key == o.key) = true := by
      rw [List.any_eq_true]
      have := hpres o (by simp)
      rw [List.mem_map] at this
      obtain ⟨o2, ho2, hk⟩ := this
      exact ⟨o2, ho2, by simp [hk]⟩
    rw [raLoop_step dirName dF none i st o rest rfl (hclean o (by simp))
      (hdf o (by simp)) hin]
    rw [raLoop_success dirName dF rest (i + 1)
      (st.filter (fun o2 => ¬(o2.key == o.key)))
      (fun o2 h2 => hclean o2 (by simp [h2]))
      (fun o2 h2 => by
        rw [List.mem_map]
        have := hpres o2 (by simp [h2])
        rw [List.mem_map] at this
        obtain ⟨o3, ho3, hk3⟩ := this
        refine ⟨o3, ?_, hk3⟩
        rw [List.mem_filter]
        refine ⟨ho3, ?_⟩
        have hne : o3.key ≠ o.key := by
          intro hk
          rw [List.map_cons] at hnd
          have h1 := (List.nodup_cons.mp hnd).1
          have h2k : o2.key = o.key := by rw [← hk3, hk]
          exact h1 (h2k ▸ List.mem_map.mpr ⟨o2, h2, rfl⟩)
        simp [hne])
      (by
        rw [List.map_cons] at hnd
        exact (List.nodup_cons.mp hnd).2)
      (fun o2 h2 => hdf o2 (by simp [h2]))]
    rw [filter_step_compose]

/-- Faulted deletion mid-walk: the walk stops at the first failing object,
keeps the earlier deletions, and reports the translated error against the
failing object's name. -/
theorem raLoop_dfault (dirName : Str) (dF : Str → Option GoError) :
    ∀ (pre : List GObj) (og : GObj) (post : List GObj) (e : GoError)
      (i : Nat) (st : Store),
      (∀ o ∈ pre ++ og :: post, goClean o.key = o.key) →
      (∀ o ∈ pre, o.key ∈ st.map GObj.key) →
      ((pre ++ og :: post).map GObj.key).Nodup →
      (∀ o ∈ pre, dF o.key = none) →
      dF og.key = some e →
      raLoop dirName dF none i st ((pre ++ og :: post).map objAttrs) =
        (st.filter (fun o2 => !(pre.any (fun q => q.key == o2.key))),
          some (toPathErrE e (str "RemoveAll") og.key))
  | [], og, post, e, i, st, hclean, _, _, _, hdfe => by
    have hnm : goJoin (objAttrs og).pfx (objAttrs og).name = og.key :=
      goJoin_nil_of_clean (hclean og (by simp))
    simp only [List.nil_append, List.map_cons, raLoop, listFaultAt, hnm, hdfe]
    simp
  | o :: pre', og, post, e, i, st, hclean, hpres, hnd, hdfpre, hdfe => by
    have hin : st.any (fun o2 => o2.key == o.key) = true := by
      rw [List.any_eq_true]
      have := hpres o (by simp)
      rw [List.mem_map] at this
      obtain ⟨o2, ho2, hk⟩ := this
      exact ⟨o2, ho2, by simp [hk]⟩
    rw [List.cons_append]
    rw [raLoop_step dirName dF none i st o (pre' ++ og :: post) rfl
      (hclean o (by simp)) (hdfpre o (by simp)) hin]
    rw [raLoop_dfault dirName dF pre' og post e (i + 1)
      (st.filter (fun o2 => ¬(o2.key == o.key)))
      (fun o2 h2 => hclean o2 (by simp [h2]))
      (fun o2 h2 => by
        rw [List.mem_map]
        have := hpres o2 (by simp [h2])
        rw [List.mem_map] at this
        obtain ⟨o3, ho3, hk3⟩ := this
        refine ⟨o3, ?_, hk3⟩
        rw [List.mem_filter]
        refine ⟨ho3, ?_⟩
        have hne : o3.key ≠ o.key := by
          intro hk
          rw [List.cons_append, List.map_cons] at hnd
          have h1 := (List.nodup_cons.mp hnd).1
          have h2k : o2.key = o.key := by rw [← hk3, hk]
          exact h1 (h2k ▸ List.mem_map.mpr ⟨o2, by simp [h2], rfl⟩)
        simp [hne])
      (by
        rw [List.cons_append, List.map_cons] at hnd
        exact (List.nodup_cons.mp hnd).2)
      (fun o2 h2 => hdfpre o2 (by simp [h2])) hdfe]
    rw [filter_step_compose]

/-- Faulted listing mid-walk: the iterator fails on its `j`-th call; the
`j` objects already listed stay deleted and the error is reported against
the directory argument. -/
theorem raLoop_lfault (dirName : Str) (dF : Str → Option GoError) (e : GoError) :
    ∀ (items : List GObj) (j : Nat) (i : Nat) (st : Store),
      (∀ o ∈ items, goClean o.key = o.key) →
      (∀ o ∈ items.take j, o.key ∈ st.map GObj.key) →
      (items.map GObj.key).Nodup →
      (∀ o ∈ items.take j, dF o.key = none) →
      j ≤ items.length →
      raLoop dirName dF (some (i + j, e)) i st (items.map objAttrs) =
        (st.filter (fun o2 => !((items.take j).any (fun q => q.key == o2.key))),
          some (toPathErrE e (str "RemoveAll") dirName))
  | items, 0, i, st, _, _, _, _, _ => by
    have hfault : listFaultAt (some (i, e)) i = some e := by
      simp [listFaultAt]
    cases items with
    | nil =>
      simp only [Nat.add_zero, List.map_nil, raLoop, hfault]
      simp
    | cons o rest =>
      simp only [Nat.add_zero, List.map_cons, raLoop, hfault]
      simp
  | items, j + 1, i, st, hclean, hpres, hnd, hdf, hj => by
    cases items with
    | nil => simp at hj
    | cons o rest =>
      have hfault : listFaultAt (some (i + (j + 1), e)) i = none := by
        simp only [listFaultAt]
        rw [if_neg (by omega)]
      have hin : st.any (fun o2 => o2.key == o.key) = true := by
        rw [List.any_eq_true]
        have := hpres o (by simp)
        rw [List.mem_map] at this
        obtain ⟨o2, ho2, hk⟩ := this
        exact ⟨o2, ho2, by simp [hk]⟩
      rw [raLoop_step dirName dF (some (i + (j + 1), e)) i st o rest hfault
        (hclean o (by simp)) (hdf o (by simp)) hin]
      have hshift : i + (j + 1) = (i + 1) + j := by omega
      rw [hshift]
      rw [raLoop_lfault dirName dF e rest j (i + 1)
        (st.filter (fun o2 => ¬(o2.key == o.key)))
        (fun o2 h2 => hclean o2 (by simp [h2]))
        (fun o2 h2 => by
          rw [List.mem_map]
          have := hpres o2 (by simp [List.take_cons]; exact .inr h2)
          rw [List.mem_map] at this
          obtain ⟨o3, ho3, hk3⟩ := this
          refine ⟨o3, ?_, hk3⟩
          rw [List.mem_filter]
          refine ⟨ho3, ?_⟩
          have hne : o3.key ≠ o.key := by
            intro hk
            rw [List.map_cons] at hnd
            have h1 := (List.nodup_cons.mp hnd).1
            have h2' : o2 ∈ rest := List.mem_of_mem_take h2
            have h2k : o2.key = o.key := by rw [← hk3, hk]
            exact h1 (h2k ▸ List.mem_map.mpr ⟨o2, h2', rfl⟩)
          simp [hne])
        (by
          rw [List.map_cons] at hnd
          exact (List.nodup_cons.mp hnd).2)
        (fun o2 h2 => hdf o2 (by simp [List.take_cons]; exact .inr h2))
        (by simpa using hj)]
      rw [show (o :: rest).take (j + 1) = o :: rest.take j from rfl]
      rw [filter_step_compose]

/-- C9 (amended): for buckets whose keys are path-clean (`path.Clean`
fixes them, so the deletion name `path.Join(attrs.Prefix, attrs.Name)`
recovers the listed key exactly) and pairwise distinct, `RemoveAll(dir)`
lists delimiter-free under the normalized prefix of `dir` and deletes
every listed object in listing order.  Conjunct 1: with a healthy
backend, exactly the objects under the prefix are removed.  Conjunct 2:
if the deletion of a listed object fails, the walk stops there, the
objects listed before it stay deleted (no rollback), and the first error
is returned against that object's name.  Conjunct 3: if the listing's
`j`-th `nextAttrs` call fails, the `j` objects already walked stay
deleted and the first error is returned against the directory.  The
clean-key hypothesis is necessary — see the counterexample, where the
join cleans the listed key `d/` to `d` and deletes the wrong object. -/
theorem c9_removeAll (store : Store) (dirName : Str) (dF : Str → Option GoError)
    (sorted : List GObj)
    (hv : validPath dirName = true)
    (hck : ∀ o ∈ store, goClean o.key = o.key)
    (hnd : (store.map GObj.key).Nodup)
    (hsorted : sorted = (store.filter (fun o =>
        goHasPrefix o.key (normalizePrefix (gKey rootFS dirName)) &&
          strLe [] o.key)).insertionSort (fun a b => strLe a.key b.key = true)) :
    ((∀ o ∈ sorted, dF o.key = none) →
      gcsfsRemoveAll rootFS store dirName dF none =
        (store.filter (fun o =>
          !(goHasPrefix o.key (normalizePrefix (gKey rootFS dirName)))), none)) ∧
    (∀ pre og post e, sorted = pre ++ og :: post →
      (∀ o ∈ pre, dF o.key = none) → dF og.key = some e →
      gcsfsRemoveAll rootFS store dirName dF none =
        (store.filter (fun o2 => !(pre.any (fun q => q.key == o2.key))),
          some (toPathErrE e (str "RemoveAll") og.key))) ∧
    (∀ j e, j ≤ sorted.length → (∀ o ∈ sorted.take j, dF o.key = none) →
      gcsfsRemoveAll rootFS store dirName dF (some (j, e)) =
        (store.filter (fun o2 =>
          !((sorted.take j).any (fun q => q.key == o2.key))),
          some (toPathErrE e (str "RemoveAll") dirName))) := by
  have hmem : ∀ o ∈ sorted, o ∈ store := by
    intro o ho
    rw [hsorted] at ho
    have hp := List.perm_insertionSort
      (fun (a b : GObj) => strLe a.key b.key = true)
      (store.filter (fun o => goHasPrefix o.key
        (normalizePrefix (gKey rootFS dirName)) && strLe [] o.key))
    exact List.mem_of_mem_filter (hp.subset ho)
  have hndsorted : (sorted.map GObj.key).Nodup := by
    rw [hsorted]
    have hp := List.perm_insertionSort
      (fun (a b : GObj) => strLe a.key b.key = true)
      (store.filter (fun o => goHasPrefix o.key
        (normalizePrefix (gKey rootFS dirName)) && strLe [] o.key))
    rw [(hp.map GObj.key).nodup_iff]
    exact ((List.filter_sublist store).map GObj.key).nodup hnd
  have hobjects : gcsObjects
      (newQuery [] (normalizePrefix (gKey rootFS dirName)) []) store =
      sorted.map objAttrs := by
    unfold gcsObjects newQuery
    rw [if_neg (by simp)]
    rw [hsorted]
  have hunfold : ∀ lF,
      gcsfsRemoveAll rootFS store dirName dF lF =
        raLoop dirName dF lF 0 store (sorted.map objAttrs) := by
    intro lF
    unfold gcsfsRemoveAll
    rw [if_neg (by rw [hv]; simp)]
    show raLoop dirName dF lF 0 store
      (gcsObjects (newQuery [] (normalizePrefix (gKey rootFS dirName)) []) store) = _
    rw [hobjects]
  refine ⟨?_, ?_, ?_⟩
  · intro hdf
    rw [hunfold none]
    rw [raLoop_success dirName dF sorted 0 store
      (fun o ho => hck o (hmem o ho))
      (fun o ho => List.mem_map.mpr ⟨o, hmem o ho, rfl⟩)
      hndsorted hdf]
    refine congrArg (fun l => (l, (none : Option GoError))) ?_
    apply List.filter_congr
    intro a ha
    cases hany : sorted.any (fun q => q.key == a.key) with
    | true =>
      rw [List.any_eq_true] at hany
      obtain ⟨q, hq, hqk⟩ := hany
      rw [beq_iff_eq] at hqk
      have : q ∈ store.filter (fun o => goHasPrefix o.key
          (normalizePrefix (gKey rootFS dirName)) && strLe [] o.key) := by
        have hp := List.perm_insertionSort
          (fun (a b : GObj) => strLe a.key b.key = true)
          (store.filter (fun o => goHasPrefix o.key
            (normalizePrefix (gKey rootFS dirName)) && strLe [] o.key))
        exact hp.subset (hsorted ▸ hq)
      have hpred := List.of_mem_filter this
      rw [Bool.and_eq_true] at hpred
      rw [← hqk, hpred.1]
    | false =>
      have : goHasPrefix a.key (normalizePrefix (gKey rootFS dirName)) = false := by
        cases hpre : goHasPrefix a.key (normalizePrefix (gKey rootFS dirName)) with
        | false => rfl
        | true =>
          exfalso
          have hafilter : a ∈ store.filter (fun o => goHasPrefix o.key
              (normalizePrefix (gKey rootFS dirName)) && strLe [] o.key) := by
            rw [List.mem_filter]
            exact ⟨ha, by rw [hpre, strLe_nil_left]; rfl⟩
          have hp := List.perm_insertionSort
            (fun (a b : GObj) => strLe a.key b.key = true)
            (store.filter (fun o => goHasPrefix o.key
              (normalizePrefix (gKey rootFS dirName)) && strLe [] o.key))
          have hasorted : a ∈ sorted := hsorted ▸ hp.symm.subset hafilter
          have : sorted.any (fun q => q.key == a.key) = true := by
            rw [List.any_eq_true]
            exact ⟨a, hasorted, by simp⟩
          rw [this] at hany
          cases hany
      rw [this]
  · intro pre og post e hsplit hdfpre hdfe
    rw [hunfold none]
    rw [hsplit] at hndsorted
    rw [hsplit]
    exact raLoop_dfault dirName dF pre og post e 0 store
      (fun o ho => hck o (hmem o (hsplit ▸ ho)))
      (fun o ho => List.mem_map.mpr
        ⟨o, hmem o (hsplit ▸ (by simp [ho] : o ∈ pre ++ og :: post)), rfl⟩)
      hndsorted hdfpre hdfe
  · intro j e hj hdf
    rw [hunfold (some (j, e))]
    rw [show (some (j, e)) = some (0 + j, e) from by rw [Nat.zero_add]]
    exact raLoop_lfault dirName dF e sorted j 0 store
      (fun o ho => hck o (hmem o ho))
      (fun o ho => List.mem_map.mpr
        ⟨o, hmem o (List.mem_of_mem_take ho), rfl⟩)
      hndsorted hdf hj

/-- Witness for C9: deleting the directory `a` of `storeC3`, with a
backend that fails deletions of `a/y`. -/
theorem c9_witness :
    ((∀ o ∈ [GObj.mk (str "a/x") [120] 7, GObj.mk (str "a/y") [121] 8],
        (fun k => if k = str "a/y" then some (GoError.backend 3) else none)
          o.key = none) →
      gcsfsRemoveAll rootFS storeC3 (str "a")
          (fun k => if k = str "a/y" then some (GoError.backend 3) else none)
          none =
        (storeC3.filter (fun o =>
          !(goHasPrefix o.key (normalizePrefix (gKey rootFS (str "a"))))),
          none)) ∧
    (∀ pre og post e,
      [GObj.mk (str "a/x") [120] 7, GObj.mk (str "a/y") [121] 8] =
        pre ++ og :: post →
      (∀ o ∈ pre,
        (fun k => if k = str "a/y" then some (GoError.backend 3) else none)
          o.key = none) →
      (fun k => if k = str "a/y" then some (GoError.backend 3) else none)
        og.key = some e →
      gcsfsRemoveAll rootFS storeC3 (str "a")
          (fun k => if k = str "a/y" then some (GoError.backend 3) else none)
          none =
        (storeC3.filter (fun o2 => !(pre.any (fun q => q.key == o2.key))),
          some (toPathErrE e (str "RemoveAll") og.key))) ∧
    (∀ j e,
      j ≤ [GObj.mk (str "a/x") [120] 7, GObj.mk (str "a/y") [121] 8].length →
      (∀ o ∈ [GObj.mk (str "a/x") [120] 7,
          GObj.mk (str "a/y") [121] 8].take j,
        (fun k => if k = str "a/y" then some (GoError.backend 3) else none)
          o.key = none) →
      gcsfsRemoveAll rootFS storeC3 (str "a")
          (fun k => if k = str "a/y" then some (GoError.backend 3) else none)
          (some (j, e)) =
        (storeC3.filter (fun o2 =>
          !(([GObj.mk (str "a/x") [120] 7,
              GObj.mk (str "a/y") [121] 8].take j).any
            (fun q => q.key == o2.key))),
          some (toPathErrE e (str "RemoveAll") (str "a")))) :=
  c9_removeAll storeC3 (str "a")
    (fun k => if k = str "a/y" then some (GoError.backend 3) else none)
    [GObj.mk (str "a/x") [120] 7, GObj.mk (str "a/y") [121] 8]
    (by decide) (by decide) (by decide) (by decide)

/-- C9 counterexample to the original claim: the bucket holds the objects
`d` and `d/` (a folder placeholder, a legal GCS key that `path.Clean`
does not fix).  `RemoveAll("d")` lists only `d/` under the normalized
prefix `d/`, recomputes its deletion name as `path.Join("", "d/") = "d"`,
deletes the out-of-prefix object `d`, and returns success — leaving `d/`
under the prefix.  Conjunct 1: the walk succeeds with exactly `d/`
remaining; conjunct 2: `d/` lies under the normalized prefix; conjunct 3:
the deleted `d` did not. -/
theorem c9_counterexample :
    gcsfsRemoveAll rootFS
        [{ key := str "d", data := [120], updated := 7 },
         { key := str "d/", data := [121], updated := 8 }]
        (str "d") (fun _ => none) none =
      ([{ key := str "d/", data := [121], updated := 8 }], none) ∧
    goHasPrefix (str "d/") (normalizePrefix (gKey rootFS (str "d"))) = true ∧
    goHasPrefix (str "d") (normalizePrefix (gKey rootFS (str "d"))) = false := by
  decide

/-! ## Claim C8: Glob -/

theorem contains_spec (keys : List Str) (key : Str) :
    contains keys key = true ↔ key ∈ keys := by
  unfold contains
  rw [List.any_eq_true]
  constructor
  · intro ⟨k, hk, he⟩
    rw [beq_iff_eq] at he
    rw [← he]
    exact hk
  · intro h
    exact ⟨key, h, by simp⟩

theorem appendIfMatch_nodup (keys : List Str) (key pattern : Str)
    (h : keys.Nodup) : (appendIfMatch keys key pattern).Nodup := by
  unfold appendIfMatch
  split
  · next hcond =>
    rw [List.nodup_append]
    refine ⟨h, List.nodup_singleton key, ?_⟩
    intro a ha hb
    rw [List.mem_singleton] at hb
    subst hb
    exact hcond.2 (contains_spec keys a |>.mpr ha)
  · exact h

theorem foldl_appendIfMatch_nodup (pattern : Str) :
    ∀ (names : List Str) (acc : List Str), acc.Nodup →
      (names.foldl (fun ms nm => appendIfMatch ms nm pattern) acc).Nodup
  | [], acc, h => h
  | nm :: rest, acc, h => by
    rw [List.foldl_cons]
    exact foldl_appendIfMatch_nodup pattern rest _
      (appendIfMatch_nodup acc nm pattern h)

/-- C8: any successful `Glob(pattern)` returns a lexicographically
strictly sorted list (sorted with no duplicate names), and a second call
against the unchanged backend returns the identical list.  (The "" and
"*" shortcut never succeeds: it calls `ReadDir("")`, and "" is not a
valid path, so the success hypothesis covers only the general path, which
sorts and deduplicates.) -/
theorem c8_glob (store : Store) (pattern : Str) (ms : List Str)
    (h : gcsfsGlob rootFS store pattern = .ok ms) :
    List.Pairwise (fun a b => strLt a b = true) ms ∧
    (∀ store2, store2 = store → gcsfsGlob rootFS store2 pattern = .ok ms) := by
  refine ⟨?_, fun store2 h2 => by rw [h2]; exact h⟩
  unfold gcsfsGlob at h
  by_cases hsc : pattern = [] ∨ pattern = ['*']
  · rw [if_pos hsc] at h
    have hrd : gcsfsReadDir rootFS store [] =
        .error (toPathErrE .invalid (str "ReadDir") []) := by
      unfold gcsfsReadDir
      rw [if_pos (by intro hc; cases hc)]
    rw [hrd] at h
    cases h
  · rw [if_neg hsc] at h
    cases hm : goMatch pattern [] with
    | error e =>
      rw [hm] at h
      cases h
    | ok b =>
      rw [hm] at h
      simp only [] at h
      cases h
      haveI : IsTotal Str (fun a b => strLe a b = true) :=
        ⟨fun a b => strLe_total a b⟩
      haveI : IsTrans Str (fun a b => strLe a b = true) :=
        ⟨fun _ _ _ => strLe_trans⟩
      have hsortle := List.sorted_insertionSort
        (fun (a b : Str) => strLe a b = true)
        ((globRec rootFS store (splitOnSlash pattern) [[]] []).foldl
          (fun ms nm => appendIfMatch ms nm pattern) [])
      have hnd : (((globRec rootFS store (splitOnSlash pattern) [[]] []).foldl
          (fun ms nm => appendIfMatch ms nm pattern) []).insertionSort
          (fun (a b : Str) => strLe a b = true)).Nodup := by
        rw [(List.perm_insertionSort (fun (a b : Str) => strLe a b = true)
          _).nodup_iff]
        exact foldl_appendIfMatch_nodup pattern _ [] List.nodup_nil
      have := List.Pairwise.and hsortle hnd
      exact this.imp (fun {a b} hab => by
        rcases strLe_iff.mp hab.1 with hlt | heq
        · exact hlt
        · exact absurd heq hab.2)

/-- Witness for C8: the single-segment pattern `a` over `storeC3`. -/
theorem c8_witness :
    List.Pairwise (fun a b => strLt a b = true) [str "a"] ∧
    (∀ store2, store2 = storeC3 →
      gcsfsGlob rootFS store2 (str "a") = .ok [str "a"]) :=
  c8_glob storeC3 (str "a") [str "a"] (by decide)

/-! ## Claim C2: listing order and duplicate names

The machinery below analyses one delimiter-"/" listing: the attrs records
a sorted run of keys folds to are strictly ordered by their sort string
(`attrKey`), and under well-formed keys with no file/directory collision
the derived entry names are pairwise distinct. -/

theorem attrKey_obj (o : GObj) : attrKey (objAttrs o) = o.key := by
  by_cases h : o.key = [] <;> simp [attrKey, objAttrs, h]

theorem attrKey_pre (t : Str) : attrKey (preAttrs t) = t := by
  simp [attrKey, preAttrs]

theorem goTrimSuffix_append (a b : Str) : goTrimSuffix (a ++ b) b = a := by
  unfold goTrimSuffix
  rw [if_pos (by
    rw [goHasSuffix, List.isSuffixOf_iff_suffix]
    exact List.suffix_append a b)]
  rw [List.length_append, Nat.add_sub_cancel]
  exact List.take_left' rfl

/-- A normalized prefix is empty or ends in a slash. -/
theorem normalizePrefix_shape (q : Str) :
    normalizePrefix q = [] ∨ goHasSuffix (normalizePrefix q) ['/'] = true := by
  simp only [normalizePrefix]
  by_cases h1 : goClean q = ['.'] ∨ goClean q = ['/']
  · rw [if_pos h1]
    exact .inl rfl
  · rw [if_neg h1]
    by_cases h2 : goClean q ≠ [] ∧ ¬ goHasSuffix (goClean q) ['/'] = true
    · rw [if_pos h2]
      refine .inr ?_
      rw [goHasSuffix, List.isSuffixOf_iff_suffix]
      exact List.suffix_append _ _
    · rw [if_neg h2]
      push_neg at h2
      by_cases h3 : goClean q = []
      · exact .inl h3
      · exact .inr (h2 h3)

/-- Slash-terminated strings over a slash-free stem: prefix forces
equality. -/
theorem noslash_slash_pref : ∀ (s s0 : Str),
    (∀ c ∈ s0, (c == '/') = false) → (s ++ ['/']) <+: (s0 ++ ['/']) → s = s0
  | [], [], _, _ => rfl
  | [], c :: s0', hns, hp => by
    exfalso
    obtain ⟨r, hr⟩ := hp
    simp only [List.nil_append, List.singleton_append, List.cons_append] at hr
    have hc : c = '/' := by
      injection hr with h1 _
      exact h1.symm
    have := hns c (by simp)
    rw [hc] at this
    simp at this
  | c :: s', [], _, hp => by
    exfalso
    obtain ⟨r, hr⟩ := hp
    have := congrArg List.length hr
    simp [List.length_append] at this
  | c :: s', d :: s0', hns, hp => by
    obtain ⟨r, hr⟩ := hp
    simp only [List.cons_append] at hr
    injection hr with h1 h2
    subst h1
    have hrec : s' = s0' :=
      noslash_slash_pref s' s0' (fun ch hch => hns ch (by simp [hch])) ⟨r, h2⟩
    rw [hrec]

/-- Two one-level common prefixes under the same `p`: prefix forces
equality. -/
theorem aligned_prefix_eq {p t t0 : Str} (h : alignedPfx p t) (h0 : alignedPfx p t0)
    (hpre : t <+: t0) : t = t0 := by
  obtain ⟨s, hs, rfl⟩ := h
  obtain ⟨s0, hs0, rfl⟩ := h0
  rw [List.append_assoc p s ['/'], List.append_assoc p s0 ['/']] at hpre
  have h2 := (List.prefix_append_right_inj p).mp hpre
  rw [noslash_slash_pref s s0 hs0 h2]

theorem aligned_not_prefix_of_ne {p t t0 : Str} (h : alignedPfx p t)
    (h0 : alignedPfx p t0) (hne : t ≠ t0) : ¬ (t <+: t0) :=
  fun hpre => hne (aligned_prefix_eq h h0 hpre)

/-- A one-level common prefix never prefixes a one-level (slash-free
remainder) key. -/
theorem aligned_not_prefix_item {p t c : Str} (h : alignedPfx p t) (hc : p <+: c)
    (hnos : ∀ ch ∈ c.drop p.length, (ch == '/') = false) : ¬ (t <+: c) := by
  obtain ⟨s, hs, rfl⟩ := h
  obtain ⟨r, rfl⟩ := hc
  rw [List.drop_left] at hnos
  intro hpre
  rw [List.append_assoc p s ['/']] at hpre
  have h2 := (List.prefix_append_right_inj p).mp hpre
  obtain ⟨w, hw⟩ := h2
  have hmem : '/' ∈ r := by
    rw [← hw]
    simp
  have := hnos '/' hmem
  simp at this

/-- A key that folds to no common prefix has a slash-free remainder. -/
theorem foldTarget_eq_none {p k : Str} (hpfx : p <+: k)
    (h : foldTarget p k = none) : ∀ c ∈ k.drop p.length, (c == '/') = false := by
  obtain ⟨r, rfl⟩ := hpfx
  rw [List.drop_left]
  simp only [foldTarget, List.drop_left] at h
  by_cases hc : (r.takeWhile (fun c => !(c == '/'))).length = r.length
  · have hTW : r.takeWhile (fun c => !(c == '/')) = r :=
      (List.takeWhile_prefix _).eq_of_length hc
    intro c hcmem
    rw [← hTW] at hcmem
    have := List.mem_takeWhile_imp hcmem
    simpa using this
  · rw [if_neg hc] at h
    cases h

/-- A key that folds to `some t` splits as `p ++ seg ++ "/" ++ rest` with a
slash-free `seg`, and `t = p ++ seg ++ "/"`. -/
theorem foldTarget_eq_some {p k t : Str} (hpfx : p <+: k)
    (h : foldTarget p k = some t) :
    ∃ seg rest, k = p ++ seg ++ '/' :: rest ∧
      (∀ c ∈ seg, (c == '/') = false) ∧ t = p ++ seg ++ ['/'] := by
  obtain ⟨r, rfl⟩ := hpfx
  simp only [foldTarget, List.drop_left] at h
  by_cases hc : (r.takeWhile (fun c => !(c == '/'))).length = r.length
  · rw [if_pos hc] at h
    cases h
  · rw [if_neg hc] at h
    injection h with h
    cases hd : r.dropWhile (fun c => !(c == '/')) with
    | nil =>
      exfalso
      apply hc
      have htd := List.takeWhile_append_dropWhile (fun c => !(c == '/')) r
      rw [hd, List.append_nil] at htd
      rw [htd]
    | cons d ds =>
      have hdq : (!(d == '/')) = false := dropWhile_head_not _ d ds hd
      have hds : d = '/' := by
        refine eq_of_beq ?_
        cases hdd : (d == '/')
        · rw [hdd] at hdq
          simp at hdq
        · rfl
      refine ⟨r.takeWhile (fun c => !(c == '/')), ds, ?_, ?_, h.symm⟩
      · have htd := List.takeWhile_append_dropWhile (fun c => !(c == '/')) r
        rw [hd, hds] at htd
        conv_lhs => rw [← htd]
        rw [List.append_assoc]
      · intro c hcm
        have := List.mem_takeWhile_imp hcm
        simpa using this

/-- A one-level remainder is non-empty under well-formed keys. -/
theorem obj_rem_ne_nil {p r k : Str} (hp : p = [] ∨ goHasSuffix p ['/'] = true)
    (hk : keyShape k) (he : k = p ++ r) : r ≠ [] := by
  intro hnil
  subst hnil
  rw [List.append_nil] at he
  rcases hp with hp | hp
  · subst hp
    exact hk.1 he
  · have hsfx : goHasSuffix k ['/'] = true := by
      rw [he]
      exact hp
    rw [hk.2.2.1] at hsfx
    exact Bool.false_ne_true hsfx

/-- A common-prefix segment is non-empty under well-formed keys. -/
theorem pre_seg_ne_nil {p seg k : Str} (hp : p = [] ∨ goHasSuffix p ['/'] = true)
    (hk : keyShape k) (hpre : (p ++ seg ++ ['/']) <+: k) : seg ≠ [] := by
  intro hnil
  subst hnil
  simp only [List.append_nil] at hpre
  rcases hp with hp | hp
  · subst hp
    simp only [List.nil_append] at hpre
    obtain ⟨r, hr⟩ := hpre
    have hhd : k.head? = some '/' := by
      rw [← hr]
      rfl
    exact hk.2.1 hhd
  · obtain ⟨p0, hp0⟩ : ['/'] <:+ p := by
      rw [← List.isSuffixOf_iff_suffix]
      exact hp
    apply hk.2.2.2
    obtain ⟨r, hr⟩ := hpre
    refine ⟨p0, r, ?_⟩
    rw [← hr, ← hp0]
    simp

/-- The content name of a one-level object record is the key remainder. -/
theorem obj_item_name {p : Str} (hp : p = [] ∨ goHasSuffix p ['/'] = true)
    (o : GObj) (r : Str) (hk : o.key = p ++ r) (hr : r ≠ [])
    (hnos : ∀ c ∈ r, (c == '/') = false) :
    (newContent (objAttrs o)).name = r := by
  have hkey : o.key ≠ [] := by
    rw [hk]
    intro hh
    exact hr (List.append_eq_nil.mp hh).2
  simp only [newContent, objAttrs]
  rw [if_neg hkey]
  simp only [newFileContent]
  rw [hk]
  exact goBase_append p r hp hr hnos

/-- The content name of a common-prefix record is its segment. -/
theorem pre_item_name {p : Str} (hp : p = [] ∨ goHasSuffix p ['/'] = true)
    (seg : Str) (hseg : seg ≠ []) (hnos : ∀ c ∈ seg, (c == '/') = false) :
    (newContent (preAttrs (p ++ seg ++ ['/']))).name = seg := by
  simp only [newContent, preAttrs]
  rw [if_true]
  simp only [newDirContent]
  rw [goTrimSuffix_append]
  exact goBase_append p seg hp hseg hnos

/-- With a fresh offset and an unbounded count, the iterator loop emits
every listed record. -/
theorem listLoop_nil_off (n : Int) (hn : n ≤ 0) :
    ∀ (items : List ObjectAttrs) (acc : List Content),
      listLoop [] n items acc = (acc ++ items.map newContent, true)
  | [], acc => by simp [listLoop]
  | a :: rest, acc => by
    have hname : strLe (newContent a).name [] = false := by
      rw [strLe_nil_right]
      simp only [beq_eq_false_iff_ne, ne_eq]
      exact newContent_name_ne_nil a
    simp only [listLoop, hname]
    rw [if_neg (by simp)]
    rw [if_neg (fun hcond => absurd hcond.1 (not_lt.mpr hn))]
    rw [listLoop_nil_off n hn rest (acc ++ [newContent a])]
    simp

/-- A name-sorted run of objects with pairwise distinct keys is strictly
key-sorted. -/
theorem pairwise_key_lt_of_sorted_nodup {l : List GObj}
    (hs : List.Pairwise (fun a b => strLe a.key b.key = true) l)
    (hnd : (l.map GObj.key).Nodup) :
    List.Pairwise (fun a b => strLt a.key b.key = true) l := by
  have hnd' : List.Pairwise (fun a b : Str => a ≠ b) (l.map GObj.key) := hnd
  have h2 : List.Pairwise (fun a b : GObj => a.key ≠ b.key) l :=
    List.pairwise_map.mp hnd'
  exact (hs.and h2).imp (fun {a b} hab => by
    rcases strLe_iff.mp hab.1 with hlt | heq
    · exact hlt
    · exact absurd heq hab.2)

/-- Every record a fold emits stems from a listed key: either the object
record of a one-level key, or the common-prefix record of its fold
target. -/
theorem foldKeys_shape (p : Str) :
    ∀ (ks : List GObj) (last : Option Str) (a : ObjectAttrs),
      (∀ o ∈ ks, p <+: o.key) →
      a ∈ foldKeys p false ks last →
      ∃ o ∈ ks,
        (a = objAttrs o ∧ ∀ ch ∈ o.key.drop p.length, (ch == '/') = false) ∨
        ∃ t, foldTarget p o.key = some t ∧ a = preAttrs t
  | [], _, a, _, ha => by simp [foldKeys] at ha
  | o :: rest, last, a, hpref, ha => by
    cases hft : foldTarget p o.key with
    | none =>
      rw [show foldKeys p false (o :: rest) last =
          objAttrs o :: foldKeys p false rest last from by simp [foldKeys, hft]] at ha
      rcases List.mem_cons.mp ha with rfl | ha'
      · exact ⟨o, by simp, .inl ⟨rfl, foldTarget_eq_none (hpref o (by simp)) hft⟩⟩
      · obtain ⟨o', ho', hsh⟩ := foldKeys_shape p rest last a
          (fun x hx => hpref x (by simp [hx])) ha'
        exact ⟨o', by simp [ho'], hsh⟩
    | some t =>
      by_cases hl : last = some t
      · rw [show foldKeys p false (o :: rest) last =
            foldKeys p false rest last from by simp [foldKeys, hft, hl]] at ha
        obtain ⟨o', ho', hsh⟩ := foldKeys_shape p rest last a
          (fun x hx => hpref x (by simp [hx])) ha
        exact ⟨o', by simp [ho'], hsh⟩
      · rw [show foldKeys p false (o :: rest) last =
            preAttrs t :: foldKeys p false rest (some t) from by
          simp [foldKeys, hft, hl]] at ha
        rcases List.mem_cons.mp ha with rfl | ha'
        · exact ⟨o, by simp, .inr ⟨t, hft, rfl⟩⟩
        · obtain ⟨o', ho', hsh⟩ := foldKeys_shape p rest (some t) a
            (fun x hx => hpref x (by simp [hx])) ha'
          exact ⟨o', by simp [ho'], hsh⟩

/-- The master ordering invariant of the delimiter fold: over a strictly
key-sorted, `p`-prefixed run, (A) the emitted records are strictly sorted
by `attrKey`; (B) every emitted record sorts strictly above the carried
`last` prefix; (C) every emitted record sorts strictly above any slash-free
one-level string below all remaining keys. -/
theorem foldKeys_ordered (p : Str) :
    ∀ (ks : List GObj) (last : Option Str),
      List.Pairwise (fun o1 o2 => strLt o1.key o2.key = true) ks →
      (∀ o ∈ ks, p <+: o.key) →
      (∀ t0, last = some t0 → alignedPfx p t0 ∧ ∀ o ∈ ks, strLt t0 o.key = true) →
      List.Pairwise (fun a b => strLt (attrKey a) (attrKey b) = true)
          (foldKeys p false ks last) ∧
      (∀ t0, last = some t0 →
        ∀ b ∈ foldKeys p false ks last, strLt t0 (attrKey b) = true) ∧
      (∀ c, p <+: c → (∀ ch ∈ c.drop p.length, (ch == '/') = false) →
        (∀ o ∈ ks, strLt c o.key = true) →
        ∀ b ∈ foldKeys p false ks last, strLt c (attrKey b) = true)
  | [], last, _, _, _ => by
    refine ⟨by simp [foldKeys], ?_, ?_⟩
    · intro t0 _ b hb
      simp [foldKeys] at hb
    · intro c _ _ _ b hb
      simp [foldKeys] at hb
  | o :: rest, last, hpw, hpref, hlow => by
    obtain ⟨hhead, htail⟩ := List.pairwise_cons.mp hpw
    have hprefo : p <+: o.key := hpref o (by simp)
    have hpref' : ∀ x ∈ rest, p <+: x.key := fun x hx => hpref x (by simp [hx])
    cases hft : foldTarget p o.key with
    | none =>
      have hnos := foldTarget_eq_none hprefo hft
      have hlow' : ∀ t0, last = some t0 →
          alignedPfx p t0 ∧ ∀ x ∈ rest, strLt t0 x.key = true :=
        fun t0 h0 => ⟨(hlow t0 h0).1, fun x hx => (hlow t0 h0).2 x (by simp [hx])⟩
      obtain ⟨ihA, ihB, ihC⟩ := foldKeys_ordered p rest last htail hpref' hlow'
      have hfold : foldKeys p false (o :: rest) last =
          objAttrs o :: foldKeys p false rest last := by
        simp [foldKeys, hft]
      rw [hfold]
      refine ⟨?_, ?_, ?_⟩
      · refine List.pairwise_cons.mpr ⟨?_, ihA⟩
        intro b hb
        rw [attrKey_obj]
        exact ihC o.key hprefo hnos hhead b hb
      · intro t0 h0 b hb
        rcases List.mem_cons.mp hb with rfl | hb'
        · rw [attrKey_obj]
          exact (hlow t0 h0).2 o (by simp)
        · exact ihB t0 h0 b hb'
      · intro c hc hcnos hclt b hb
        rcases List.mem_cons.mp hb with rfl | hb'
        · rw [attrKey_obj]
          exact hclt o (by simp)
        · exact ihC c hc hcnos (fun x hx => hclt x (by simp [hx])) b hb'
    | some t =>
      obtain ⟨seg, restk, hkk, hsegnos, htt⟩ := foldTarget_eq_some hprefo hft
      have htpre : t <+: o.key := by
        rw [hkk, htt]
        exact ⟨restk, by simp⟩
      have haligned : alignedPfx p t := ⟨seg, hsegnos, htt⟩
      have hlt_rest : ∀ x ∈ rest, strLt t x.key = true := fun x hx =>
        strLt_of_le_of_lt (strLe_of_pref htpre) (hhead x hx)
      have hlow2 : ∀ t0, some t = some t0 →
          alignedPfx p t0 ∧ ∀ x ∈ rest, strLt t0 x.key = true := by
        intro t0 h0
        injection h0 with h0
        subst h0
        exact ⟨haligned, hlt_rest⟩
      obtain ⟨ihA, ihB, ihC⟩ := foldKeys_ordered p rest (some t) htail hpref' hlow2
      by_cases hl : last = some t
      · have hfold : foldKeys p false (o :: rest) last =
            foldKeys p false rest (some t) := by
          simp [foldKeys, hft, hl]
        rw [hfold]
        refine ⟨ihA, ?_, ?_⟩
        · intro t0 h0 b hb
          rw [hl] at h0
          injection h0 with h0
          subst h0
          exact ihB t rfl b hb
        · intro c hc hcnos hclt b hb
          exact ihC c hc hcnos (fun x hx => hclt x (by simp [hx])) b hb
      · have hfold : foldKeys p false (o :: rest) last =
            preAttrs t :: foldKeys p false rest (some t) := by
          simp [foldKeys, hft, hl]
        rw [hfold]
        have hBt : ∀ b ∈ foldKeys p false rest (some t),
            strLt t (attrKey b) = true := fun b hb => ihB t rfl b hb
        refine ⟨?_, ?_, ?_⟩
        · refine List.pairwise_cons.mpr ⟨?_, ihA⟩
          intro b hb
          rw [attrKey_pre]
          exact hBt b hb
        · intro t0 h0 b hb
          obtain ⟨hal0, hlt0⟩ := hlow t0 h0
          have hne : t ≠ t0 := fun he => hl (by rw [h0, he])
          have h1 : ¬ (t0 <+: t) :=
            aligned_not_prefix_of_ne hal0 haligned (fun he => hne he.symm)
          have h2 : ¬ (t <+: t0) := aligned_not_prefix_of_ne haligned hal0 hne
          have hlt0t : strLt t0 t = true :=
            strLt_through_pref t0 t o.key h1 h2 htpre (hlt0 o (by simp))
          rcases List.mem_cons.mp hb with rfl | hb'
          · rw [attrKey_pre]
            exact hlt0t
          · exact strLt_trans t0 t (attrKey b) hlt0t (hBt b hb')
        · intro c hc hcnos hclt b hb
          have hnc : ¬ (t <+: c) := aligned_not_prefix_item haligned hc hcnos
          have hct : strLt c t = true :=
            strLt_strengthen_to_pref t c o.key hnc htpre (hclt o (by simp))
          rcases List.mem_cons.mp hb with rfl | hb'
          · rw [attrKey_pre]
            exact hct
          · exact strLt_trans c t (attrKey b) hct (hBt b hb')

/-- Over a strictly sorted, well-formed, collision-free run of keys, the
folded records carry pairwise distinct content names. -/
theorem fold_names_pairwise_ne (store : Store) (p : Str) (ks : List GObj)
    (hshape : ∀ o ∈ store, keyShape o.key)
    (hp : p = [] ∨ goHasSuffix p ['/'] = true)
    (hcol : ¬ fileDirCollision store p)
    (hmem : ∀ o ∈ ks, o ∈ store)
    (hpref : ∀ o ∈ ks, p <+: o.key)
    (hpw : List.Pairwise (fun a b => strLt a.key b.key = true) ks) :
    List.Pairwise (fun a b => (newContent a).name ≠ (newContent b).name)
      (foldKeys p false ks none) := by
  obtain ⟨ihA, _, _⟩ := foldKeys_ordered p ks none hpw hpref (fun t0 h0 => by cases h0)
  refine List.Pairwise.imp_of_mem ?_ ihA
  intro a b ha hb hR heq
  obtain ⟨oa, hoaks, hca⟩ := foldKeys_shape p ks none a hpref ha
  obtain ⟨ob, hobks, hcb⟩ := foldKeys_shape p ks none b hpref hb
  rcases hca with ⟨rfl, hnosa⟩ | ⟨ta, hfta, rfl⟩ <;>
    rcases hcb with ⟨rfl, hnosb⟩ | ⟨tb, hftb, rfl⟩
  · obtain ⟨ra, hra⟩ := hpref oa hoaks
    obtain ⟨rb, hrb⟩ := hpref ob hobks
    rw [← hra, List.drop_left] at hnosa
    rw [← hrb, List.drop_left] at hnosb
    have hrane : ra ≠ [] := obj_rem_ne_nil hp (hshape oa (hmem oa hoaks)) hra.symm
    have hrbne : rb ≠ [] := obj_rem_ne_nil hp (hshape ob (hmem ob hobks)) hrb.symm
    have hna := obj_item_name hp oa ra hra.symm hrane hnosa
    have hnb := obj_item_name hp ob rb hrb.symm hrbne hnosb
    rw [hna, hnb] at heq
    subst heq
    have hkeq : oa.key = ob.key := by rw [← hra, ← hrb]
    rw [attrKey_obj, attrKey_obj, hkeq, strLt_irrefl] at hR
    exact Bool.false_ne_true hR
  · obtain ⟨ra, hra⟩ := hpref oa hoaks
    rw [← hra, List.drop_left] at hnosa
    have hrane : ra ≠ [] := obj_rem_ne_nil hp (hshape oa (hmem oa hoaks)) hra.symm
    have hna := obj_item_name hp oa ra hra.symm hrane hnosa
    obtain ⟨segb, restb, hkb, hnossegb, htb⟩ :=
      foldTarget_eq_some (hpref ob hobks) hftb
    have htbpre : tb <+: ob.key := by
      rw [hkb, htb]
      exact ⟨restb, by simp⟩
    have hsegbne : segb ≠ [] :=
      pre_seg_ne_nil hp (hshape ob (hmem ob hobks)) (htb ▸ htbpre)
    have hnb : (newContent (preAttrs tb)).name = segb := by
      rw [htb]
      exact pre_item_name hp segb hsegbne hnossegb
    rw [hna, hnb] at heq
    subst heq
    exact hcol ⟨ra, hrane, hnosa, ⟨oa, hmem oa hoaks, hra.symm⟩,
      ⟨ob, hmem ob hobks, by
        rw [hkb]
        exact ⟨restb, by simp⟩⟩⟩
  · obtain ⟨rb, hrb⟩ := hpref ob hobks
    rw [← hrb, List.drop_left] at hnosb
    have hrbne : rb ≠ [] := obj_rem_ne_nil hp (hshape ob (hmem ob hobks)) hrb.symm
    have hnb := obj_item_name hp ob rb hrb.symm hrbne hnosb
    obtain ⟨sega, resta, hka, hnossega, hta⟩ :=
      foldTarget_eq_some (hpref oa hoaks) hfta
    have htapre : ta <+: oa.key := by
      rw [hka, hta]
      exact ⟨resta, by simp⟩
    have hsegane : sega ≠ [] :=
      pre_seg_ne_nil hp (hshape oa (hmem oa hoaks)) (hta ▸ htapre)
    have hna : (newContent (preAttrs ta)).name = sega := by
      rw [hta]
      exact pre_item_name hp sega hsegane hnossega
    rw [hna, hnb] at heq
    refine hcol ⟨rb, hrbne, hnosb, ⟨ob, hmem ob hobks, hrb.symm⟩,
      ⟨oa, hmem oa hoaks, ?_⟩⟩
    rw [hka, ← heq]
    exact ⟨resta, by simp⟩
  · obtain ⟨sega, resta, hka, hnossega, hta⟩ :=
      foldTarget_eq_some (hpref oa hoaks) hfta
    obtain ⟨segb, restb, hkb, hnossegb, htb⟩ :=
      foldTarget_eq_some (hpref ob hobks) hftb
    have htapre : ta <+: oa.key := by
      rw [hka, hta]
      exact ⟨resta, by simp⟩
    have htbpre : tb <+: ob.key := by
      rw [hkb, htb]
      exact ⟨restb, by simp⟩
    have hsegane : sega ≠ [] :=
      pre_seg_ne_nil hp (hshape oa (hmem oa hoaks)) (hta ▸ htapre)
    have hsegbne : segb ≠ [] :=
      pre_seg_ne_nil hp (hshape ob (hmem ob hobks)) (htb ▸ htbpre)
    have hna : (newContent (preAttrs ta)).name = sega := by
      rw [hta]
      exact pre_item_name hp sega hsegane hnossega
    have hnb : (newContent (preAttrs tb)).name = segb := by
      rw [htb]
      exact pre_item_name hp segb hsegbne hnossegb
    rw [hna, hnb] at heq
    have hteq : ta = tb := by rw [hta, htb, heq]
    rw [attrKey_pre, attrKey_pre, hteq, strLt_irrefl] at hR
    exact Bool.false_ne_true hR

/-- The records of a fresh delimiter-"/" listing carry pairwise distinct
content names (well-formed keys, no file/directory collision). -/
theorem listing_names_pairwise_ne (store : Store) (p : Str)
    (hnd : (store.map GObj.key).Nodup)
    (hshape : ∀ o ∈ store, keyShape o.key)
    (hp : p = [] ∨ goHasSuffix p ['/'] = true)
    (hcol : ¬ fileDirCollision store p) :
    List.Pairwise (fun a b => (newContent a).name ≠ (newContent b).name)
      (gcsObjects
        { delimiter := ['/'], pfx := p, startOffset := [],
          includeTrailingDelimiter := false } store) := by
  have hobj : gcsObjects
      { delimiter := ['/'], pfx := p, startOffset := [],
        includeTrailingDelimiter := false } store =
      foldKeys p false ((store.filter
        (fun o => goHasPrefix o.key p && strLe [] o.key)).insertionSort
        (fun a b => strLe a.key b.key = true)) none := by
    unfold gcsObjects
    simp only []
    rw [if_true]
  rw [hobj]
  haveI : IsTotal GObj (fun a b => strLe a.key b.key = true) :=
    ⟨fun a b => strLe_total a.key b.key⟩
  haveI : IsTrans GObj (fun a b => strLe a.key b.key = true) :=
    ⟨fun _ _ _ => strLe_trans⟩
  have hsorted := List.sorted_insertionSort
    (fun (a b : GObj) => strLe a.key b.key = true)
    (store.filter (fun o => goHasPrefix o.key p && strLe [] o.key))
  have hperm := List.perm_insertionSort
    (fun (a b : GObj) => strLe a.key b.key = true)
    (store.filter (fun o => goHasPrefix o.key p && strLe [] o.key))
  have hsubmem : ∀ o ∈ (store.filter
      (fun o => goHasPrefix o.key p && strLe [] o.key)).insertionSort
      (fun a b => strLe a.key b.key = true), o ∈ store := by
    intro o ho
    exact List.mem_of_mem_filter (hperm.mem_iff.mp ho)
  have hprefmem : ∀ o ∈ (store.filter
      (fun o => goHasPrefix o.key p && strLe [] o.key)).insertionSort
      (fun a b => strLe a.key b.key = true), p <+: o.key := by
    intro o ho
    have h2 := List.mem_filter.mp (hperm.mem_iff.mp ho)
    have h3 := h2.2
    rw [Bool.and_eq_true, goHasPrefix, List.isPrefixOf_iff_prefix] at h3
    exact h3.1
  have hksnd : (((store.filter
      (fun o => goHasPrefix o.key p && strLe [] o.key)).insertionSort
      (fun a b => strLe a.key b.key = true)).map GObj.key).Nodup := by
    rw [(hperm.map GObj.key).nodup_iff]
    exact List.Nodup.sublist
      (List.Sublist.map GObj.key (List.filter_sublist store)) hnd
  have hpw := pairwise_key_lt_of_sorted_nodup hsorted hksnd
  exact fold_names_pairwise_ne store p _ hshape hp hcol hsubmem hprefmem hpw

/-- C2 (amended): for every directory and every internal open-buffer size,
`ReadDir` (the unbounded `readDir(-1)` path) returns a list sorted
ascending by entry name; and when the bucket's keys are pairwise distinct
and well-formed (non-empty, no leading/trailing or doubled slash) and no
path one level under the listed prefix is simultaneously an object and a
directory, the names are also pairwise distinct.  The duplicate half needs
the collision hypothesis — see the counterexample, where an object `d/a`
coexists with the directory `d/a/` and `ReadDir("d")` yields two entries
both named `a`. -/
theorem c2_amended (bufSize : Int) (store : Store) (dirName : Str)
    (entries : List Content)
    (hnd : (store.map GObj.key).Nodup)
    (hshape : ∀ o ∈ store, keyShape o.key)
    (h : gcsfsReadDir { dirOpenBufferSize := bufSize, dir := [] } store dirName =
      .ok entries) :
    List.Pairwise (fun a b => strLe a.name b.name = true) entries ∧
    (¬ fileDirCollision store
        (normalizePrefix (gKey { dirOpenBufferSize := bufSize, dir := [] } dirName)) →
      (entries.map Content.name).Nodup) := by
  by_cases hv : validPath dirName = true
  · have hitems : ∃ d', dirList store
        (newGcsDir { dirOpenBufferSize := bufSize, dir := [] } dirName) (-1) =
        .ok ((gcsObjects
            { delimiter := ['/'],
              pfx := normalizePrefix
                (gKey { dirOpenBufferSize := bufSize, dir := [] } dirName),
              startOffset := [], includeTrailingDelimiter := false }
            store).map newContent, d') := by
      have h0 : dirList store
          (newGcsDir { dirOpenBufferSize := bufSize, dir := [] } dirName) (-1) =
          .ok (dirListQuery store
            (newGcsDir { dirOpenBufferSize := bufSize, dir := [] } dirName)
            (-1) []) := rfl
      rw [h0]
      simp only [dirListQuery, newGcsDir]
      rw [listLoop_nil_off (-1) (by norm_num)]
      simp only [List.nil_append, if_true]
      by_cases hlen : ((gcsObjects
          { delimiter := ['/'],
            pfx := normalizePrefix
              (gKey { dirOpenBufferSize := bufSize, dir := [] } dirName),
            startOffset := [], includeTrailingDelimiter := false }
          store).map newContent).length > 0
      · rw [if_pos hlen]
        exact ⟨_, rfl⟩
      · rw [if_neg hlen]
        exact ⟨_, rfl⟩
    obtain ⟨d', hd'⟩ := hitems
    unfold gcsfsReadDir at h
    rw [if_neg (not_not_intro hv)] at h
    unfold dirReadDir at h
    rw [hd'] at h
    simp only [] at h
    rw [if_pos (by norm_num : (-1 : Int) ≤ 0)] at h
    injection h with h
    subst h
    constructor
    · haveI : IsTotal Content (fun a b => strLe a.name b.name = true) :=
        ⟨fun a b => strLe_total a.name b.name⟩
      haveI : IsTrans Content (fun a b => strLe a.name b.name = true) :=
        ⟨fun _ _ _ => strLe_trans⟩
      exact List.sorted_insertionSort _ _
    · intro hcol
      have hpn := listing_names_pairwise_ne store
        (normalizePrefix (gKey { dirOpenBufferSize := bufSize, dir := [] } dirName))
        hnd hshape (normalizePrefix_shape _) hcol
      rw [((List.perm_insertionSort (fun (a b : Content) => strLe a.name b.name = true)
        _).map Content.name).nodup_iff]
      rw [List.map_map]
      exact List.pairwise_map.mpr hpn
  · exfalso
    unfold gcsfsReadDir at h
    rw [if_pos hv] at h
    cases h

/-- Witness for C2: `ReadDir("a")` on the two-file directory `storeC3`. -/
theorem c2_witness :
    List.Pairwise (fun a b => strLe a.name b.name = true)
      ([{ name := str "x", isDir := false, size := 1, modTime := 7 },
        { name := str "y", isDir := false, size := 1, modTime := 8 }] :
        List Content) ∧
    (¬ fileDirCollision storeC3
        (normalizePrefix (gKey { dirOpenBufferSize := 100, dir := [] } (str "a"))) →
      (([{ name := str "x", isDir := false, size := 1, modTime := 7 },
         { name := str "y", isDir := false, size := 1, modTime := 8 }] :
          List Content).map Content.name).Nodup) :=
  c2_amended 100 storeC3 (str "a")
    [{ name := str "x", isDir := false, size := 1, modTime := 7 },
     { name := str "y", isDir := false, size := 1, modTime := 8 }]
    (by decide) (by decide) (by decide)

end Gcsfs
